import Mathlib

/-!
A shallow embedding of the selection-state directory tree of the `gthr`
repository (source files `src/directory/state.rs`, `src/directory/tree.rs`,
`src/main.rs`, `src/fuzzy/matcher.rs`, `src/fuzzy/filter.rs`), together with
theorems settling the specification claims about it.

Modelling conventions:
* Rust `usize` arena indices become `Nat`; `Vec<FileNode>` becomes
  `List FileNode`; the `HashMap<PathBuf, usize>` becomes an association list;
  a `PathBuf` is the list of its components (`List String`).
* The recursive tree walks of the source (`propagate_to_children`,
  `update_parent_state`, `collect_included_files`) have no structural
  termination argument in Rust (they terminate because arena trees built by
  `add_node` are acyclic, parents having strictly smaller indices than their
  children); here they take an explicit fuel argument and the public entry
  points pass `nodes.length` as fuel, which the proofs show is sufficient on
  well-formed arenas.
* Filesystem reads and the third-party `infer` magic-number detector used by
  the text classifier, and the third-party `SkimMatcherV2` fuzzy matcher, are
  external collaborators of the repository; they are abstracted as explicit
  function parameters (`FS`, the `fuzzy` argument), and every theorem holds
  for an arbitrary instantiation of them.
-/

/-- `src/directory/state.rs`: the tri-state selection value. -/
inductive SelectionState where
  | Included
  | Excluded
  | Partial
deriving DecidableEq

namespace SelectionState

/-- `Default for SelectionState`: `Excluded`. -/
def default : SelectionState := .Excluded

/-- `is_included`: `matches!(self, Included | Partial)`. -/
def is_included : SelectionState → Bool
  | .Included => true
  | .Partial => true
  | .Excluded => false

/-- `toggle`: `Included → Excluded`, `Excluded → Included`, `Partial → Included`. -/
def toggle : SelectionState → SelectionState
  | .Included => .Excluded
  | .Excluded => .Included
  | .Partial => .Included

end SelectionState

/-- `src/directory/tree.rs` `FileNode`. -/
structure FileNode where
  path : List String
  name : String
  is_directory : Bool
  size : Option Nat
  children : List Nat
  parent : Option Nat
  state : SelectionState
  is_text_file : Bool
deriving DecidableEq

/-- `FileNode::new`: the display name is `path.file_name()` (last component),
falling back to the whole path rendered as a string. -/
def FileNode.new (path : List String) (is_directory : Bool) (parent : Option Nat) :
    FileNode :=
  { path := path
    name := (path.getLast?).getD (String.intercalate "/" path)
    is_directory := is_directory
    size := none
    children := []
    parent := parent
    state := SelectionState.default
    is_text_file := false }

/-- `src/directory/tree.rs` `DirectoryTree`. -/
structure DirectoryTree where
  nodes : List FileNode
  root_index : Nat
  path_to_index : List (List String × Nat)
deriving DecidableEq

/-- `DirectoryTree::new`: a single directory root node (default `Excluded`). -/
def DirectoryTree.new (root_path : List String) : DirectoryTree :=
  { nodes := [FileNode.new root_path true none]
    root_index := 0
    path_to_index := [(root_path, 0)] }

/-- The children list stored at index `i` (empty when `i` is out of range;
the source indexes `self.nodes[i]` directly, which is always in range when it
does so). -/
def childrenD (nodes : List FileNode) (i : Nat) : List Nat :=
  ((nodes[i]?).map (·.children)).getD []

/-- The parent back-link stored at index `i`. -/
def parentIdx (nodes : List FileNode) (i : Nat) : Option Nat :=
  (nodes[i]?).bind (·.parent)

/-- The selection state stored at index `i`. -/
def stateOf (nodes : List FileNode) (i : Nat) : Option SelectionState :=
  (nodes[i]?).map (·.state)

/-- The guarded state write `if let Some(n) = nodes.get_mut(i) { n.state = s }`. -/
def setStateAt (nodes : List FileNode) (i : Nat) (s : SelectionState) : List FileNode :=
  match nodes[i]? with
  | some n => nodes.set i { n with state := s }
  | none => nodes

/-- `propagate_to_children`: force `state` onto the whole subtree below
`parent_index` unless `state` is `Partial`.  `fuel` bounds the recursion
depth; the entry point passes `nodes.length`, which suffices on well-formed
arenas (children have strictly larger indices than their parents). -/
def propagate_to_children (fuel : Nat) (nodes : List FileNode) (parent_index : Nat)
    (state : SelectionState) : List FileNode :=
  match fuel with
  | 0 => nodes
  | fuel + 1 =>
    if state = SelectionState.Partial then nodes
    else
      (childrenD nodes parent_index).foldl (fun acc child_index =>
        propagate_to_children fuel (setStateAt acc child_index state) child_index state)
        nodes

/-- The aggregation policy of `update_parent_state`: `Partial` when some child
is `Partial` or the children mix `Included` and `Excluded`; else `Included`
when at least one child is `Included`; else `Excluded`. -/
def aggregateStates (states : List SelectionState) : SelectionState :=
  let included_count := states.count SelectionState.Included
  let excluded_count := states.count SelectionState.Excluded
  let partial_count := states.count SelectionState.Partial
  if 0 < partial_count ∨ (0 < included_count ∧ 0 < excluded_count) then
    SelectionState.Partial
  else if 0 < included_count then SelectionState.Included
  else SelectionState.Excluded

/-- The aggregation read of `update_parent_state`: the states of the children
of `pi`, skipping out-of-range child indices exactly as the source's counting
loop (`self.nodes.get`) does, fed to the counting policy. -/
def upsAggregate (nodes : List FileNode) (pi : Nat) : SelectionState :=
  aggregateStates ((childrenD nodes pi).filterMap (fun ci => (nodes[ci]?).map (·.state)))

/-- `update_parent_state`: recompute the state at `parent_index` from its
immediate children, then recurse on the grandparent.  As in the source, the
grandparent link is read after the state write (the write does not change the
`parent` field).  `fuel` bounds the walk; the entry point passes
`nodes.length`, sufficient on well-formed arenas (parents have strictly
smaller indices). -/
def update_parent_state (fuel : Nat) (nodes : List FileNode) (parent_index : Nat) :
    List FileNode :=
  match fuel with
  | 0 => nodes
  | fuel + 1 =>
    if (childrenD nodes parent_index).isEmpty then nodes
    else
      match parentIdx (setStateAt nodes parent_index (upsAggregate nodes parent_index))
          parent_index with
      | some grandparent_index =>
        update_parent_state fuel
          (setStateAt nodes parent_index (upsAggregate nodes parent_index))
          grandparent_index
      | none => setStateAt nodes parent_index (upsAggregate nodes parent_index)

/-- `DirectoryTree::set_state`: write the state, propagate downward, then
re-aggregate the ancestors; a no-op on an invalid index. -/
def set_state (t : DirectoryTree) (index : Nat) (state : SelectionState) :
    DirectoryTree :=
  match t.nodes[index]? with
  | none => t
  | some node =>
    let nodes0 := t.nodes.set index { node with state := state }
    let nodes1 := propagate_to_children nodes0.length nodes0 index state
    let nodes2 := match node.parent with
      | some parent_index => update_parent_state nodes1.length nodes1 parent_index
      | none => nodes1
    { t with nodes := nodes2 }

/-- `DirectoryTree::toggle_state`. -/
def toggle_state (t : DirectoryTree) (index : Nat) : DirectoryTree :=
  match t.nodes[index]? with
  | some node => set_state t index node.state.toggle
  | none => t

/-- `DirectoryTree::get_node`. -/
def get_node (t : DirectoryTree) (index : Nat) : Option FileNode :=
  t.nodes[index]?

/-- `DirectoryTree::get_node_mut`: same lookup as `get_node`; the mutable
borrow it hands out is the caller's business, the function itself only
performs the bounds-checked lookup. -/
def get_node_mut (t : DirectoryTree) (index : Nat) : Option FileNode :=
  t.nodes[index]?

/-- `collect_included_files`: pre-order walk pushing text-file leaves whose
state passes `is_included`. -/
def collect_included_files (fuel : Nat) (t : DirectoryTree) (index : Nat)
    (included_files : List FileNode) : List FileNode :=
  match fuel with
  | 0 => included_files
  | fuel + 1 =>
    match t.nodes[index]? with
    | none => included_files
    | some node =>
      let acc :=
        if node.state.is_included && !node.is_directory && node.is_text_file then
          included_files ++ [node]
        else included_files
      node.children.foldl (fun a ci => collect_included_files fuel t ci a) acc

/-- `DirectoryTree::get_all_included_files`. -/
def get_all_included_files (t : DirectoryTree) : List FileNode :=
  collect_included_files t.nodes.length t t.root_index []

/-! ## Text classification (`src/directory/tree.rs`, lines 203-352) -/

/-- External collaborators of the text classifier: the filesystem (a file's
bytes, `none` on an open/read failure) and the third-party `infer` crate's
magic-number detection.  All theorems hold for arbitrary instantiations. -/
structure FS where
  read : List String → Option (List Nat)
  inferDetects : List Nat → Bool

/-- `get_utf8_char_length`: the advertised length of a UTF-8 sequence from
its first byte, by the source's bit-mask tests. -/
def get_utf8_char_length (first_byte : Nat) : Option Nat :=
  if first_byte &&& 0x80 = 0 then some 1
  else if first_byte &&& 0xE0 = 0xC0 then some 2
  else if first_byte &&& 0xF0 = 0xE0 then some 3
  else if first_byte &&& 0xF8 = 0xF0 then some 4
  else none

/-- A UTF-8 continuation byte. -/
def utf8ContByte (b : Nat) : Bool := 0x80 ≤ b && b ≤ 0xBF

/-- Model of `std::str::from_utf8(slice).is_ok()`: the byte list is valid
UTF-8 (rejecting overlong encodings, surrogates and code points above
U+10FFFF, exactly as Rust's validator does). -/
def isValidUtf8 : List Nat → Bool
  | [] => true
  | b :: rest =>
    if b ≤ 0x7F then isValidUtf8 rest
    else if 0xC2 ≤ b && b ≤ 0xDF then
      match rest with
      | b1 :: rest' => utf8ContByte b1 && isValidUtf8 rest'
      | [] => false
    else if b = 0xE0 then
      match rest with
      | b1 :: b2 :: rest' =>
        (0xA0 ≤ b1 && b1 ≤ 0xBF) && utf8ContByte b2 && isValidUtf8 rest'
      | _ => false
    else if (0xE1 ≤ b && b ≤ 0xEC) || b = 0xEE || b = 0xEF then
      match rest with
      | b1 :: b2 :: rest' => utf8ContByte b1 && utf8ContByte b2 && isValidUtf8 rest'
      | _ => false
    else if b = 0xED then
      match rest with
      | b1 :: b2 :: rest' =>
        (0x80 ≤ b1 && b1 ≤ 0x9F) && utf8ContByte b2 && isValidUtf8 rest'
      | _ => false
    else if b = 0xF0 then
      match rest with
      | b1 :: b2 :: b3 :: rest' =>
        (0x90 ≤ b1 && b1 ≤ 0xBF) && utf8ContByte b2 && utf8ContByte b3 &&
          isValidUtf8 rest'
      | _ => false
    else if 0xF1 ≤ b && b ≤ 0xF3 then
      match rest with
      | b1 :: b2 :: b3 :: rest' =>
        utf8ContByte b1 && utf8ContByte b2 && utf8ContByte b3 && isValidUtf8 rest'
      | _ => false
    else if b = 0xF4 then
      match rest with
      | b1 :: b2 :: b3 :: rest' =>
        (0x80 ≤ b1 && b1 ≤ 0x8F) && utf8ContByte b2 && utf8ContByte b3 &&
          isValidUtf8 rest'
      | _ => false
    else false
termination_by l => l.length
decreasing_by all_goals simp_arith

/-- The scanning loop of `is_likely_text`: the number of bytes counted as
printable (printable ASCII, tab/CR/LF, or the bytes of a complete valid
multi-byte UTF-8 sequence fully contained in the buffer).  The source walks
an index `i` through the buffer; here the remaining suffix is walked.
`(b :: rest).drop len` is written `rest.drop (len - 1)` for the termination
argument; the two agree because `get_utf8_char_length` never returns 0. -/
def countPrintable : List Nat → Nat
  | [] => 0
  | b :: rest =>
    if (32 ≤ b && b ≤ 126) || b = 10 || b = 13 || b = 9 then
      1 + countPrintable rest
    else if 0x80 ≤ b then
      match get_utf8_char_length b with
      | some len =>
        if len ≤ (b :: rest).length && isValidUtf8 ((b :: rest).take len) then
          len + countPrintable (rest.drop (len - 1))
        else countPrintable rest
      | none => countPrintable rest
    else countPrintable rest
termination_by l => l.length
decreasing_by
  all_goals simp_arith [List.length_drop]

/-- `is_likely_text`: no NUL byte, and at least 95% of the buffer counted
printable.  The source compares `printable_count as f64 / buffer.len() as f64
>= 0.95` in `f64`; for `printable_count ≤ buffer.len() ≤ 8192` this agrees
exactly with the rational comparison `20 * printable_count ≥ 19 * buffer.len()`
used here: both counts are exactly representable, the quotient is computed
with relative error below 2⁻⁵³, the literal `0.95` rounds to the same double
as the exact quotient 19/20 does, and any other fraction with denominator at
most 8192 is at distance at least 1/(20·8192) from 0.95, far beyond the
rounding error. -/
def is_likely_text (buffer : List Nat) : Bool :=
  if buffer.contains 0 then false
  else decide (19 * buffer.length ≤ 20 * countPrintable buffer)

/-- `SAMPLE_SIZE` of `is_text_by_content`. -/
def SAMPLE_SIZE : Nat := 8192

/-- `is_text_by_content`: read at most the first 8192 bytes; an open/read
failure or empty read is not text; a magic-number hit (`infer::get`) is not
text; otherwise defer to `is_likely_text`. -/
def is_text_by_content (fs : FS) (path : List String) : Bool :=
  match fs.read path with
  | none => false
  | some content =>
    let buffer := content.take SAMPLE_SIZE
    if buffer.length = 0 then false
    else if fs.inferDetects buffer then false
    else is_likely_text buffer

/-- The extension allow-list of `is_text_by_extension` (lines 217-246). -/
def textExtensions : List String :=
  ["rs", "py", "js", "ts", "jsx", "tsx", "java", "c", "cpp", "cc", "cxx",
   "h", "hpp", "hxx", "go", "rb", "php", "swift", "kt", "kts", "scala",
   "dart", "lua", "perl", "r", "jl", "hs", "elm", "clj", "cljs",
   "ex", "exs", "erl", "hrl", "ml", "mli", "fs", "fsi", "fsx", "fsscript",
   "pas", "pp", "inc", "asm", "s",
   "html", "htm", "css", "scss", "sass", "less", "vue", "svelte",
   "json", "yaml", "yml", "toml", "xml", "csv", "tsv", "ini", "conf",
   "config", "properties", "env",
   "md", "txt", "rst", "adoc", "tex", "org",
   "sh", "bash", "zsh", "fish", "ps1", "bat", "cmd",
   "gitignore", "gitattributes", "dockerignore", "editorconfig",
   "eslintrc", "prettierrc", "babelrc", "npmrc", "yarnrc",
   "dockerfile", "makefile", "cmake", "gradle", "maven", "ant",
   "webpack", "rollup", "vite", "gulpfile", "gruntfile",
   "package", "lock", "sum", "mod", "cargo", "gemfile", "podfile",
   "requirements", "pipfile", "pyproject",
   "log", "typ", "typst", "nix", "vim", "vimrc", "emacs", "el",
   "lisp", "scm", "rkt", "sql", "proto", "graphql", "gql"]

/-- The extensionless-name allow-list of `is_text_by_extension`
(lines 251-257). -/
def textFileNames : List String :=
  ["readme", "license", "changelog", "authors", "contributors",
   "makefile", "dockerfile", "vagrantfile", "gemfile", "rakefile",
   "procfile", "cmakelists", "build", "configure", "install",
   "news", "todo", "copying", "manifest", "justfile"]

/-- Model of Rust `Path::file_name`: the last path component. -/
def pathFileName (path : List String) : Option String := path.getLast?

/-- Model of Rust `Path::extension`: the part of the file name after its last
`'.'`, unless the only `'.'` is the leading character (hidden files such as
`.gitignore` have no extension) or there is no `'.'` at all. -/
def rustExtension (path : List String) : Option (List Char) :=
  match (pathFileName path).map String.toList with
  | none => none
  | some [] => none
  | some (c0 :: rest) =>
    if rest.contains '.' then
      some ((((c0 :: rest).reverse.takeWhile (fun c => c ≠ '.')).reverse))
    else none

/-- ASCII lowercasing of a name, as `str::to_lowercase` acts on the ASCII
extensions and names compared against the allow-lists. -/
def lowerString (l : List Char) : String := String.mk (l.map Char.toLower)

/-- `is_text_by_extension`: extension allow-list first, falling back to the
well-known extensionless names. -/
def is_text_by_extension (path : List String) : Bool :=
  match rustExtension path with
  | some ext => textExtensions.contains (lowerString ext)
  | none =>
    match pathFileName path with
    | some name => textFileNames.contains (lowerString name.toList)
    | none => false

/-- `is_text_file`: extension check, then content sniffing. -/
def is_text_file (fs : FS) (path : List String) : Bool :=
  is_text_by_extension path || is_text_by_content fs path

/-- `DirectoryTree::add_node`: idempotent on an already-present path, `none`
(inserting nothing) when the parent path is unknown, otherwise appends a new
node, registers it in the path map and in its parent's child list.  The text
classification performed for file nodes consults the abstracted filesystem
`fs`. -/
def add_node (fs : FS) (t : DirectoryTree) (path : List String)
    (is_directory : Bool) (parent_path : List String) :
    DirectoryTree × Option Nat :=
  match (t.path_to_index.lookup path) with
  | some existing => (t, some existing)
  | none =>
    match t.path_to_index.lookup parent_path with
    | none => (t, none)
    | some parent_index =>
      let node_index := t.nodes.length
      let node0 := FileNode.new path is_directory (some parent_index)
      let node :=
        if is_directory then node0
        else { node0 with is_text_file := is_text_file fs path }
      let nodes1 := t.nodes ++ [node]
      let nodes2 := match nodes1[parent_index]? with
        | some parent => nodes1.set parent_index
            { parent with children := parent.children ++ [node_index] }
        | none => nodes1
      ({ nodes := nodes2
         root_index := t.root_index
         path_to_index := (path, node_index) :: t.path_to_index }, some node_index)

/-! ## Glob-style pattern matching and bulk selection (`src/main.rs`) -/

/-- Model of Rust `str::replace`: replace all non-overlapping occurrences of
`pat` left to right.  `(c :: rest).drop pat.length` is written
`rest.drop (pat.length - 1)`; the two agree because the replacing branch
requires `pat` to be nonempty.  The recursion is fueled by the string length
(each step consumes at least one character), keeping the definition
kernel-computable; `replaceListF_congr` below shows any fuel at least
`s.length` gives the same result. -/
def replaceListF (fuel : Nat) (s pat rep : List Char) : List Char :=
  match fuel, s with
  | 0, s => s
  | _ + 1, [] => []
  | fuel + 1, c :: rest =>
    if pat ≠ [] ∧ pat.isPrefixOf (c :: rest) then
      rep ++ replaceListF fuel (rest.drop (pat.length - 1)) pat rep
    else c :: replaceListF fuel rest pat rep

def replaceList (s pat rep : List Char) : List Char :=
  replaceListF s.length s pat rep

/-- The glob-to-regex translation chain of `path_matches_pattern`:
`.` → `\.`, then `**` → `.*`, then `*` → `[^/]*`, then `?` → `.`.
Note the third step also rewrites the `*` just introduced by the second, so
`**` ends up as `.[^/]*`. -/
def regexTranslate (pattern : List Char) : List Char :=
  replaceList
    (replaceList
      (replaceList
        (replaceList pattern ['.'] ['\\', '.'])
        ['*', '*'] ['.', '*'])
      ['*'] ['[', '^', '/', ']', '*'])
    ['?'] ['.']

/-- The three regex atoms the translation chain can produce: a literal
character (escaped or plain), `.` (any character except newline), and
`[^/]*` (any run of non-separator characters). -/
inductive RTok where
  | lit (c : Char)
  | anyChar
  | nonSlashStar
deriving DecidableEq

/-- Regex metacharacters outside the fragment generated by the translation on
glob-safe patterns.  A translated pattern containing one of these is treated
as malformed here; the real `regex` crate may instead accept it with regex
semantics (for example a stray `(`), so the general theorems below quantify
only over patterns free of these characters, matching the glob pattern
language the specification describes. -/
def regexMeta : List Char := ['[', ']', '(', ')', '\x7b', '\x7d', '*', '+', '?', '|', '^', '$', '\\']

/-- Parse the translated regex string into atoms; `none` models a regex the
`regex` crate would not compile (the malformed-translation fallback).  An
escaped character is a literal; `[^/]*` is the negated-class star; `.` is the
any-character atom; a plain non-metacharacter is a literal.  Fueled by the
string length (each step consumes at least one character) to stay
kernel-computable; `parseRegexTokensF_congr` shows fuel-irrelevance. -/
def parseRegexTokensF (fuel : Nat) (l : List Char) : Option (List RTok) :=
  match l with
  | [] => some []
  | c :: rest =>
    match fuel with
    | 0 => none
    | fuel + 1 =>
      if c = '\\' then
        match rest with
        | c2 :: rest' => (parseRegexTokensF fuel rest').map (fun ts => RTok.lit c2 :: ts)
        | [] => none
      else if c = '[' then
        if rest.take 4 = ['^', '/', ']', '*'] then
          (parseRegexTokensF fuel (rest.drop 4)).map (fun ts => RTok.nonSlashStar :: ts)
        else none
      else if c = '.' then (parseRegexTokensF fuel rest).map (fun ts => RTok.anyChar :: ts)
      else if regexMeta.contains c then none
      else (parseRegexTokensF fuel rest).map (fun ts => RTok.lit c :: ts)

def parseRegexTokens (l : List Char) : Option (List RTok) :=
  parseRegexTokensF l.length l

/-- Anchored matching of the parsed atoms against a path, with the `regex`
crate's semantics on this fragment: `.` matches any character except `'\n'`,
`[^/]*` any run of characters other than `'/'`.  Fueled (every step consumes
a token or a character) to stay kernel-computable; the wrapper `rmatch`
passes enough fuel. -/
def rmatchF (fuel : Nat) : List RTok → List Char → Bool :=
  match fuel with
  | 0 => fun _ _ => false
  | fuel + 1 => fun ts xs =>
    match ts, xs with
    | [], [] => true
    | [], _ :: _ => false
    | RTok.lit _ :: _, [] => false
    | RTok.lit c :: ts, x :: xs => x = c && rmatchF fuel ts xs
    | RTok.anyChar :: _, [] => false
    | RTok.anyChar :: ts, x :: xs => x ≠ '\n' && rmatchF fuel ts xs
    | RTok.nonSlashStar :: ts, [] => rmatchF fuel ts []
    | RTok.nonSlashStar :: ts, x :: xs =>
      rmatchF fuel ts (x :: xs) || (x ≠ '/' && rmatchF fuel (RTok.nonSlashStar :: ts) xs)

def rmatch (ts : List RTok) (xs : List Char) : Bool :=
  rmatchF (ts.length + xs.length + 1) ts xs

/-- `path_matches_pattern` (`src/main.rs`, lines 223-253): the `"**/*"`
wildcard, then the trailing-`*` prefix form, then the leading-`*` suffix
form, then the regex translation with an exact-equality fallback on a
malformed translation. -/
def path_matches_pattern (path pattern : List Char) : Bool :=
  if pattern = "**/*".toList then true
  else if pattern.getLast? = some '*' then
    (pattern.dropLast).isPrefixOf path
  else if pattern.head? = some '*' then
    (pattern.drop 1).isSuffixOf path
  else
    match parseRegexTokens (regexTranslate pattern) with
    | some ts => rmatch ts path
    | none => path = pattern

/-- The specification's reading of the translated glob, for comparison with
the code: under the claim, `**` matches any character sequence including
separators, `*` any separator-free sequence, `?` one character; the code's
sequential replacement instead turns `**` into one arbitrary character
followed by a separator-free run (`.[^/]*`), which `globTokens` records. -/
def globTokens : List Char → List RTok
  | [] => []
  | c :: rest =>
    if c = '*' then
      match rest with
      | c2 :: rest' =>
        if c2 = '*' then RTok.anyChar :: RTok.nonSlashStar :: globTokens rest'
        else RTok.nonSlashStar :: globTokens (c2 :: rest')
      | [] => [RTok.nonSlashStar]
    else if c = '?' then RTok.anyChar :: globTokens rest
    else RTok.lit c :: globTokens rest

/-- The relative path used by `apply_patterns`: the node's path stripped of
the root node's path rendered with `/` separators, falling back to the full
path when stripping fails (`unwrap_or(&node.path)`). -/
def relativeDisplayPath (t : DirectoryTree) (node : FileNode) : List Char :=
  match t.nodes[t.root_index]? with
  | some root_node =>
    if root_node.path.isPrefixOf node.path then
      (String.intercalate "/" (node.path.drop root_node.path.length)).toList
    else (String.intercalate "/" node.path).toList
  | none => (String.intercalate "/" node.path).toList

/-- One iteration of the `apply_patterns` loop: compute the include decision
for node `i` and apply it through `set_state`.  The two source loops with
`break` amount to: included by default iff the include list is empty, forced
on by any include-pattern hit on the relative path or the bare name, and
forced off by any exclude-pattern hit. -/
def patternDecision (inc exc : List (List Char)) (t : DirectoryTree)
    (node : FileNode) : Bool :=
  -- the `should_include` computation of the loop body, lines 188-212 of main.rs

  (inc.isEmpty || inc.any (fun p =>
      path_matches_pattern (relativeDisplayPath t node) p ||
      path_matches_pattern node.name.toList p)) &&
  !(exc.any (fun p =>
      path_matches_pattern (relativeDisplayPath t node) p ||
      path_matches_pattern node.name.toList p))

def applyPatternsStep (inc exc : List (List Char)) (t : DirectoryTree) (i : Nat) :
    DirectoryTree :=
  match t.nodes[i]? with
  | none => t
  | some node =>
    set_state t i
      (if patternDecision inc exc t node then SelectionState.Included
       else SelectionState.Excluded)

/-- `apply_patterns` (`src/main.rs`, lines 168-221): visit every arena index
in order and apply its include/exclude decision via `set_state`. -/
def apply_patterns (t : DirectoryTree) (inc exc : List (List Char)) : DirectoryTree :=
  (List.range t.nodes.length).foldl (applyPatternsStep inc exc) t

/-! ## Fuzzy filtering (`src/fuzzy/matcher.rs`, `src/fuzzy/filter.rs`) -/

/-- `MatchResult` of `src/fuzzy/matcher.rs`. -/
structure MatchResult where
  score : Int
  indices : List Nat
  item_index : Nat
deriving DecidableEq

/-- `search_items`, with the third-party `SkimMatcherV2` abstracted as the
`fuzzy` parameter (`fuzzy text query` models `fuzzy_indices(text, query)`).
An empty query yields every item with score 0 in order; otherwise matches
are collected in item order and sorted by descending score.  Rust's
`sort_by(|a, b| b.score.cmp(&a.score))` is a stable sort, as is `mergeSort`,
and a stable sort's output is determined by the comparison, so the two agree. -/
def search_items (fuzzy : List Char → List Char → Option (Int × List Nat))
    (items : List (List Char)) (query : List Char) : List MatchResult :=
  if query.isEmpty then
    (List.range items.length).map (fun i => { score := 0, indices := [], item_index := i })
  else
    let results := items.enum.filterMap (fun p =>
      (fuzzy p.2 query).map (fun sc =>
        ({ score := sc.1, indices := sc.2, item_index := p.1 } : MatchResult)))
    results.mergeSort (fun a b => decide (b.score ≤ a.score))

/-- `FilteredResults` of `src/fuzzy/filter.rs`; the source field `matches` is
spelled `matches'` because `matches` is reserved in Lean. -/
structure FilteredResults where
  matches' : List MatchResult
  visible_items : List Nat
deriving DecidableEq

/-- The searchable universe of `filter_tree_nodes`: directories and text
files, paired with their arena indices, in arena order. -/
def searchableNodes (t : DirectoryTree) : List (Nat × FileNode) :=
  t.nodes.enum.filter (fun p => p.2.is_directory || p.2.is_text_file)

/-- The display text of `filter_tree_nodes`: the path relative to the root
rendered with `/` separators, falling back to the bare name when the root's
path is not a prefix. -/
def fuzzyDisplayText (t : DirectoryTree) (node : FileNode) : List Char :=
  match t.nodes[t.root_index]? with
  | some root_node =>
    if root_node.path.isPrefixOf node.path then
      (String.intercalate "/" (node.path.drop root_node.path.length)).toList
    else node.name.toList
  | none => node.name.toList

/-- `filter_tree_nodes` (`src/fuzzy/filter.rs`, lines 26-64). -/
def filter_tree_nodes (fuzzy : List Char → List Char → Option (Int × List Nat))
    (t : DirectoryTree) (query : List Char) : FilteredResults :=
  let searchable_nodes := searchableNodes t
  let node_texts := searchable_nodes.map (fun p => fuzzyDisplayText t p.2)
  let ms := search_items fuzzy node_texts query
  let visible_items := ms.map (fun m =>
    ((searchable_nodes[m.item_index]?).map (·.1)).getD 0)
  { matches' := ms, visible_items := visible_items }

/-! ## Well-formed arenas, tree relations, and shape preservation -/

/-- Whether index `i` holds a directory (`true` by default out of range; the
lemmas below only use it in range). -/
def isDirD (nodes : List FileNode) (i : Nat) : Bool :=
  ((nodes[i]?).map (·.is_directory)).getD true

/-- `c` is a child of `i` in the arena. -/
def childOf (nodes : List FileNode) (i c : Nat) : Prop :=
  c ∈ childrenD nodes i

/-- `j` is a strict descendant of `i` (a nonempty chain of child links). -/
def Desc (nodes : List FileNode) (i j : Nat) : Prop :=
  Relation.TransGen (childOf nodes) i j

/-- `j` is `i` or a strict descendant of `i`. -/
def DescEq (nodes : List FileNode) (i j : Nat) : Prop :=
  Relation.ReflTransGen (childOf nodes) i j

/-- `p` is the parent of `i`. -/
def parentRel (nodes : List FileNode) (i p : Nat) : Prop :=
  parentIdx nodes i = some p

/-- `a` is a strict ancestor of `i`. -/
def Anc (nodes : List FileNode) (i a : Nat) : Prop :=
  Relation.TransGen (parentRel nodes) i a

/-- `a` is `i` or a strict ancestor of `i`. -/
def AncEq (nodes : List FileNode) (i a : Nat) : Prop :=
  Relation.ReflTransGen (parentRel nodes) i a

/-- Well-formedness at one index: children have strictly larger indices and
point back to this node as their parent; the parent has a strictly smaller
index and lists this node among its children; non-directory (file) nodes are
leaves.  Arenas produced by traversal (`DirectoryTree.new` followed by
`add_node` calls with directory parents) satisfy this at every index. -/
def nodeWF (nodes : List FileNode) (i : Nat) : Prop :=
  (∀ c ∈ childrenD nodes i, i < c ∧ parentIdx nodes c = some i) ∧
  (∀ p ∈ (parentIdx nodes i).toList, p < i ∧ i ∈ childrenD nodes p) ∧
  (isDirD nodes i = false → childrenD nodes i = [])

/-- Arena-wide well-formedness. -/
def WF (nodes : List FileNode) : Prop :=
  ∀ i, i < nodes.length → nodeWF nodes i

instance (nodes : List FileNode) (i : Nat) : Decidable (nodeWF nodes i) := by
  unfold nodeWF; infer_instance

instance (nodes : List FileNode) : Decidable (WF nodes) := by
  unfold WF; infer_instance

/-- Everything but the (only mutable) selection state of a node. -/
def FileNode.shape (n : FileNode) : FileNode := { n with state := SelectionState.Excluded }

/-- Two arenas that agree on everything except selection states.  All the
state-writing operations below preserve it. -/
def sameShape (nodes nodes' : List FileNode) : Prop :=
  nodes.map FileNode.shape = nodes'.map FileNode.shape

/-- Abbreviations for the four translation stages. -/
def trStage1 (s : List Char) : List Char := replaceList s ['.'] ['\\', '.']

def trStage2 (s : List Char) : List Char := replaceList s ['*', '*'] ['.', '*']

def trStage3 (s : List Char) : List Char := replaceList s ['*'] ['[', '^', '/', ']', '*']

def trStage4 (s : List Char) : List Char := replaceList s ['?'] ['.']

/-- Specification-side pre-order depth-first enumeration of arena indices
from `index`, children in insertion order. -/
def preorderIndices (fuel : Nat) (t : DirectoryTree) (index : Nat) : List Nat :=
  match fuel with
  | 0 => []
  | fuel + 1 =>
    match t.nodes[index]? with
    | none => []
    | some node => index :: node.children.flatMap (fun ci => preorderIndices fuel t ci)

/-- The collection predicate of `collect_included_files`: an `is_included`
state (`Included` or `Partial`), not a directory, and a text file. -/
def includedFilePred (n : FileNode) : Bool :=
  n.state.is_included && !n.is_directory && n.is_text_file

/-- A filesystem stub on which every read fails; content sniffing then
classifies nothing as text, leaving extension-based classification. -/
def fsNone : FS := { read := fun _ => none, inferDetects := fun _ => false }

/-- The C5 counterexample tree: a root with one text file `f.rs`, whose state
is then set to `Partial` through the public `set_state`. -/
def treeC5 : DirectoryTree :=
  set_state ((add_node fsNone (DirectoryTree.new ["r"]) ["r", "f.rs"] false ["r"]).1)
    1 SelectionState.Partial

/-- The immediate-children states a node's aggregation reads (out-of-range
child indices skipped as in the source's counting loop). -/
def childStates (nodes : List FileNode) (pi : Nat) : List SelectionState :=
  (childrenD nodes pi).filterMap (fun ci => (nodes[ci]?).map (·.state))

/-- A small traversal-built demo arena: root `r` with directory `d` holding
text file `a.rs`. -/
def treeDemo : DirectoryTree :=
  (add_node fsNone
    ((add_node fsNone (DirectoryTree.new ["r"]) ["r", "d"] true ["r"]).1)
    ["r", "d", "a.rs"] false ["r", "d"]).1

/-- The matched candidates of a non-empty query, in original (arena) order:
per searchable item, the fuzzy result mapped to a `MatchResult`, non-matching
candidates dropped. -/
def fuzzyCandidates (fuzzy : List Char → List Char → Option (Int × List Nat))
    (t : DirectoryTree) (q : List Char) : List MatchResult :=
  (((searchableNodes t).map (fun p => fuzzyDisplayText t p.2)).enum).filterMap
    (fun p => (fuzzy p.2 q).map (fun sc =>
      ({ score := sc.1, indices := sc.2, item_index := p.1 } : MatchResult)))

/-- The C6 counterexample tree: root `r`, directory `stuff`, binary file
`a.bin`. -/
def treeC6 : DirectoryTree :=
  (add_node fsNone
    ((add_node fsNone (DirectoryTree.new ["r"]) ["r", "stuff"] true ["r"]).1)
    ["r", "stuff", "a.bin"] false ["r", "stuff"]).1

/-- Invariant of claim C4: no file (non-directory) entry holds `Partial`. -/
def filesNonPartial (nodes : List FileNode) : Prop :=
  ∀ j, j < nodes.length → isDirD nodes j = false →
    stateOf nodes j ≠ some SelectionState.Partial

instance (nodes : List FileNode) : Decidable (filesNonPartial nodes) := by
  unfold filesNonPartial
  infer_instance

/-- A fuzzy matcher that matches nothing, for concrete instantiation. -/
def fuzzyNone : List Char → List Char → Option (Int × List Nat) := fun _ _ => none

/-- Fuel-bounded list of strict descendants of `i` (pre-order). -/
def descListF : Nat → List FileNode → Nat → List Nat
  | 0, _, _ => []
  | fuel + 1, nodes, i =>
    (childrenD nodes i).flatMap (fun c => c :: descListF fuel nodes c)

/-- The descendant files of `i`: on well-formed arenas (children larger
than parents) the fuel `nodes.length` enumerates every descendant. -/
def descFiles (nodes : List FileNode) (i : Nat) : List Nat :=
  (descListF nodes.length nodes i).filter (fun j => !(isDirD nodes j))

/-- The per-directory state characterization of claim C1, over the concrete
descendant-file list. -/
def dirStatesConsistent (nodes : List FileNode) : Prop :=
  ∀ i, i < nodes.length → isDirD nodes i = true →
    (stateOf nodes i = some SelectionState.Included ↔
      descFiles nodes i ≠ [] ∧
      ∀ j ∈ descFiles nodes i, stateOf nodes j = some SelectionState.Included) ∧
    (stateOf nodes i = some SelectionState.Excluded ↔
      ∀ j ∈ descFiles nodes i, stateOf nodes j ≠ some SelectionState.Included)

instance (nodes : List FileNode) : Decidable (dirStatesConsistent nodes) := by
  unfold dirStatesConsistent
  infer_instance

/-- Every directory has at least one descendant file. -/
def everyDirHasFile (nodes : List FileNode) : Prop :=
  ∀ i, i < nodes.length → isDirD nodes i = true → descFiles nodes i ≠ []

instance (nodes : List FileNode) : Decidable (everyDirHasFile nodes) := by
  unfold everyDirHasFile
  infer_instance

/-- The relational form of the per-directory characterization. -/
def dirCharRel (nodes : List FileNode) (d : Nat) : Prop :=
  (stateOf nodes d = some SelectionState.Included ↔
    (∃ j, Desc nodes d j ∧ isDirD nodes j = false) ∧
    ∀ j, Desc nodes d j → isDirD nodes j = false →
      stateOf nodes j = some SelectionState.Included) ∧
  (stateOf nodes d = some SelectionState.Excluded ↔
    ∀ j, Desc nodes d j → isDirD nodes j = false →
      stateOf nodes j ≠ some SelectionState.Included)

/-- The C1 counterexample tree: root `r` with an empty directory `emptyd`
and a file `f.rs`. -/
def treeC1 : DirectoryTree :=
  (add_node fsNone
    ((add_node fsNone (DirectoryTree.new ["r"]) ["r", "emptyd"] true ["r"]).1)
    ["r", "f.rs"] false ["r"]).1

theorem replaceListF_congr : ∀ (fuel₁ fuel₂ : Nat) (s pat rep : List Char),
    s.length ≤ fuel₁ → s.length ≤ fuel₂ →
    replaceListF fuel₁ s pat rep = replaceListF fuel₂ s pat rep := by
  intro fuel₁
  induction fuel₁ with
  | zero =>
    intro fuel₂ s pat rep h₁ h₂
    have : s = [] := List.length_eq_zero.mp (Nat.le_zero.mp h₁)
    subst this
    cases fuel₂ <;> rfl
  | succ fuel ih =>
    intro fuel₂ s pat rep h₁ h₂
    cases s with
    | nil => cases fuel₂ <;> rfl
    | cons c rest =>
      cases fuel₂ with
      | zero => simp at h₂
      | succ fuel' =>
        simp only [replaceListF]
        by_cases hc : pat ≠ [] ∧ pat.isPrefixOf (c :: rest)
        · rw [if_pos hc, if_pos hc]
          have hlen : (rest.drop (pat.length - 1)).length ≤ rest.length := by
            simp [List.length_drop]
          simp only [List.length_cons] at h₁ h₂
          rw [ih fuel' _ pat rep (by omega) (by omega)]
        · rw [if_neg hc, if_neg hc]
          simp only [List.length_cons] at h₁ h₂
          rw [ih fuel' rest pat rep (by omega) (by omega)]

theorem parseRegexTokensF_congr : ∀ (fuel₁ fuel₂ : Nat) (l : List Char),
    l.length ≤ fuel₁ → l.length ≤ fuel₂ →
    parseRegexTokensF fuel₁ l = parseRegexTokensF fuel₂ l := by
  intro fuel₁
  induction fuel₁ with
  | zero =>
    intro fuel₂ l h₁ h₂
    have : l = [] := List.length_eq_zero.mp (Nat.le_zero.mp h₁)
    subst this
    cases fuel₂ <;> rfl
  | succ fuel ih =>
    intro fuel₂ l h₁ h₂
    cases l with
    | nil => cases fuel₂ <;> rfl
    | cons c rest =>
      cases fuel₂ with
      | zero => simp at h₂
      | succ fuel' =>
        simp only [List.length_cons, Nat.add_le_add_iff_right] at h₁ h₂
        by_cases hb : c = '\\'
        · subst hb
          cases rest with
          | nil => rfl
          | cons c2 rest' =>
            simp only [List.length_cons] at h₁ h₂
            have e := ih fuel' rest' (by omega) (by omega)
            simp [parseRegexTokensF, e]
        · by_cases hcl : c = '['
          · subst hcl
            by_cases ht : rest.take 4 = ['^', '/', ']', '*']
            · have hlen : (rest.drop 4).length ≤ rest.length := by
                simp [List.length_drop]
              have e := ih fuel' (rest.drop 4) (by omega) (by omega)
              simp [parseRegexTokensF, ht, e]
            · simp [parseRegexTokensF, ht]
          · by_cases hd : c = '.'
            · subst hd
              have e := ih fuel' rest (by omega) (by omega)
              simp [parseRegexTokensF, e]
            · by_cases hm : regexMeta.contains c
              · have hm' : c ∈ regexMeta := by simpa using hm
                simp [parseRegexTokensF, hb, hcl, hd, hm']
              · have hm' : ¬ c ∈ regexMeta := by simpa using hm
                have e := ih fuel' rest (by omega) (by omega)
                simp [parseRegexTokensF, hb, hcl, hd, hm', e]

theorem childrenD_mem_some {nodes : List FileNode} {i c : Nat}
    (h : c ∈ childrenD nodes i) : ∃ n, nodes[i]? = some n ∧ c ∈ n.children := by
  unfold childrenD at h
  cases hn : nodes[i]? with
  | none => rw [hn] at h; simp at h
  | some n => rw [hn] at h; exact ⟨n, rfl, by simpa using h⟩

theorem parentIdx_some_lt {nodes : List FileNode} {c p : Nat}
    (h : parentIdx nodes c = some p) : c < nodes.length := by
  unfold parentIdx at h
  cases hn : nodes[c]? with
  | none => rw [hn] at h; simp at h
  | some n => exact (List.getElem?_eq_some_iff.mp hn).1

theorem childOf_lt_length {nodes : List FileNode} {i c : Nat}
    (h : childOf nodes i c) : i < nodes.length := by
  obtain ⟨n, hn, -⟩ := childrenD_mem_some h
  exact (List.getElem?_eq_some_iff.mp hn).1

theorem WF.child_facts {nodes : List FileNode} (hwf : WF nodes) {i c : Nat}
    (h : childOf nodes i c) :
    i < c ∧ c < nodes.length ∧ parentIdx nodes c = some i := by
  have hi := childOf_lt_length h
  obtain ⟨h1, -, -⟩ := hwf i hi
  obtain ⟨hlt, hp⟩ := h1 c h
  exact ⟨hlt, parentIdx_some_lt hp, hp⟩

theorem WF.parent_facts {nodes : List FileNode} (hwf : WF nodes) {i p : Nat}
    (h : parentRel nodes i p) : p < i ∧ childOf nodes p i := by
  have hi : i < nodes.length := parentIdx_some_lt h
  obtain ⟨-, h2, -⟩ := hwf i hi
  have := h2 p (by simp [parentRel] at h; simp [h])
  exact ⟨this.1, this.2⟩

/-- Under well-formedness a child link is exactly an inverse parent link. -/
theorem WF.childOf_iff_parentRel {nodes : List FileNode} (hwf : WF nodes)
    {p c : Nat} : childOf nodes p c ↔ parentRel nodes c p := by
  constructor
  · intro h; exact (hwf.child_facts h).2.2
  · intro h; exact (hwf.parent_facts h).2

theorem WF.desc_lt {nodes : List FileNode} (hwf : WF nodes) {i j : Nat}
    (h : Desc nodes i j) : i < j ∧ j < nodes.length := by
  induction h with
  | single hc => exact ⟨(hwf.child_facts hc).1, (hwf.child_facts hc).2.1⟩
  | tail _ hc ih => exact ⟨lt_trans ih.1 (hwf.child_facts hc).1, (hwf.child_facts hc).2.1⟩

theorem WF.anc_lt {nodes : List FileNode} (hwf : WF nodes) {i a : Nat}
    (h : Anc nodes i a) : a < i := by
  induction h with
  | single hp => exact (hwf.parent_facts hp).1
  | tail _ hp ih => exact lt_trans (hwf.parent_facts hp).1 ih

theorem WF.ancEq_le {nodes : List FileNode} (hwf : WF nodes) {i a : Nat}
    (h : AncEq nodes i a) : a ≤ i := by
  rcases (Relation.reflTransGen_iff_eq_or_transGen.mp h) with h | h
  · exact le_of_eq h
  · exact le_of_lt (hwf.anc_lt h)

theorem WF.descEq_le {nodes : List FileNode} (hwf : WF nodes) {i j : Nat}
    (h : DescEq nodes i j) : i ≤ j := by
  rcases (Relation.reflTransGen_iff_eq_or_transGen.mp h) with h | h
  · exact le_of_eq h.symm
  · exact le_of_lt (hwf.desc_lt h).1

/-- Under well-formedness, descendants and ancestors are inverse notions. -/
theorem WF.desc_iff_anc {nodes : List FileNode} (hwf : WF nodes) {i j : Nat} :
    Desc nodes i j ↔ Anc nodes j i := by
  constructor
  · intro h
    induction h with
    | single hc => exact Relation.TransGen.single (hwf.childOf_iff_parentRel.mp hc)
    | tail _ hc ih =>
      exact Relation.TransGen.head (hwf.childOf_iff_parentRel.mp hc) ih
  · intro h
    induction h with
    | single hp => exact Relation.TransGen.single (hwf.childOf_iff_parentRel.mpr hp)
    | tail _ hp ih =>
      exact Relation.TransGen.head (hwf.childOf_iff_parentRel.mpr hp) ih

theorem parentRel_right_unique {nodes : List FileNode} :
    ∀ {a b c : Nat}, parentRel nodes a b → parentRel nodes a c → b = c := by
  intro a b c h1 h2
  unfold parentRel at h1 h2
  rw [h1] at h2
  exact Option.some_injective _ h2

/-- Two ancestors-or-equals of the same node are comparable (the ancestor
chain is a chain, since `parentRel` is functional). -/
theorem ancEq_total {nodes : List FileNode} {j a b : Nat}
    (ha : AncEq nodes j a) (hb : AncEq nodes j b) :
    AncEq nodes b a ∨ AncEq nodes a b := by
  exact Relation.ReflTransGen.total_of_right_unique
    (fun _ _ _ h1 h2 => parentRel_right_unique h1 h2) hb ha

theorem sameShape.rfl {nodes : List FileNode} : sameShape nodes nodes := Eq.refl _

theorem sameShape.symm {a b : List FileNode} (h : sameShape a b) : sameShape b a :=
  Eq.symm h

theorem sameShape.trans {a b c : List FileNode} (h1 : sameShape a b)
    (h2 : sameShape b c) : sameShape a c := Eq.trans h1 h2

theorem sameShape.length_eq {a b : List FileNode} (h : sameShape a b) :
    a.length = b.length := by
  have := congrArg List.length h
  simpa using this

theorem sameShape.getElem?_shape {a b : List FileNode} (h : sameShape a b) (i : Nat) :
    (a[i]?).map FileNode.shape = (b[i]?).map FileNode.shape := by
  rw [← List.getElem?_map, h, List.getElem?_map]

theorem sameShape.childrenD_eq {a b : List FileNode} (h : sameShape a b) (i : Nat) :
    childrenD a i = childrenD b i := by
  have hh := h.getElem?_shape i
  unfold childrenD
  cases ha : a[i]? with
  | none =>
    cases hb : b[i]? with
    | none => rfl
    | some n' => rw [ha, hb] at hh; simp at hh
  | some n =>
    cases hb : b[i]? with
    | none => rw [ha, hb] at hh; simp at hh
    | some n' =>
      rw [ha, hb] at hh
      simp only [Option.map_some'] at hh
      have hsh : FileNode.shape n = FileNode.shape n' := Option.some.inj hh
      have hproj := congrArg FileNode.children hsh
      have : n.children = n'.children := hproj
      simp [this]

theorem sameShape.parentIdx_eq {a b : List FileNode} (h : sameShape a b) (i : Nat) :
    parentIdx a i = parentIdx b i := by
  have hh := h.getElem?_shape i
  unfold parentIdx
  cases ha : a[i]? with
  | none =>
    cases hb : b[i]? with
    | none => rfl
    | some n' => rw [ha, hb] at hh; simp at hh
  | some n =>
    cases hb : b[i]? with
    | none => rw [ha, hb] at hh; simp at hh
    | some n' =>
      rw [ha, hb] at hh
      simp only [Option.map_some'] at hh
      have hsh : FileNode.shape n = FileNode.shape n' := Option.some.inj hh
      have hproj := congrArg FileNode.parent hsh
      have : n.parent = n'.parent := hproj
      simp [this]

theorem sameShape.isDirD_eq {a b : List FileNode} (h : sameShape a b) (i : Nat) :
    isDirD a i = isDirD b i := by
  have hh := h.getElem?_shape i
  unfold isDirD
  cases ha : a[i]? with
  | none =>
    cases hb : b[i]? with
    | none => rfl
    | some n' => rw [ha, hb] at hh; simp at hh
  | some n =>
    cases hb : b[i]? with
    | none => rw [ha, hb] at hh; simp at hh
    | some n' =>
      rw [ha, hb] at hh
      simp only [Option.map_some'] at hh
      have hsh : FileNode.shape n = FileNode.shape n' := Option.some.inj hh
      have hproj := congrArg FileNode.is_directory hsh
      have : n.is_directory = n'.is_directory := hproj
      simp [this]

theorem sameShape.childOf_eq {a b : List FileNode} (h : sameShape a b) :
    childOf a = childOf b := by
  funext i c
  unfold childOf
  rw [h.childrenD_eq i]

theorem sameShape.parentRel_eq {a b : List FileNode} (h : sameShape a b) :
    parentRel a = parentRel b := by
  funext i p
  unfold parentRel
  rw [h.parentIdx_eq i]

theorem sameShape.desc_eq {a b : List FileNode} (h : sameShape a b) :
    Desc a = Desc b := by
  unfold Desc; rw [h.childOf_eq]

theorem sameShape.descEq_eq {a b : List FileNode} (h : sameShape a b) :
    DescEq a = DescEq b := by
  unfold DescEq; rw [h.childOf_eq]

theorem sameShape.anc_eq {a b : List FileNode} (h : sameShape a b) :
    Anc a = Anc b := by
  unfold Anc; rw [h.parentRel_eq]

theorem sameShape.ancEq_eq {a b : List FileNode} (h : sameShape a b) :
    AncEq a = AncEq b := by
  unfold AncEq; rw [h.parentRel_eq]

theorem sameShape.wf_iff {a b : List FileNode} (h : sameShape a b) :
    WF a ↔ WF b := by
  unfold WF nodeWF
  rw [h.length_eq]
  constructor
  · intro hw i hi
    have := hw i hi
    simp only [h.childrenD_eq, h.parentIdx_eq, h.isDirD_eq] at this
    exact this
  · intro hw i hi
    have := hw i hi
    simp only [← h.childrenD_eq, ← h.parentIdx_eq, ← h.isDirD_eq] at this
    exact this

/-- Replacing an element by one with the same content is the identity. -/
theorem set_of_getElem?_some {l : List FileNode} {i : Nat} {a : FileNode}
    (h : l[i]? = some a) : l.set i a = l := by
  apply List.ext_getElem?
  intro n
  rcases eq_or_ne i n with rfl | hne
  · rw [List.getElem?_set_self (List.getElem?_eq_some_iff.mp h).1, h]
  · rw [List.getElem?_set_ne hne]

/-- Writing a state preserves the arena shape. -/
theorem sameShape_set_state {nodes : List FileNode} {i : Nat} {n : FileNode}
    (h : nodes[i]? = some n) (s : SelectionState) :
    sameShape nodes (nodes.set i { n with state := s }) := by
  unfold sameShape
  rw [List.map_set]
  have hs : FileNode.shape { n with state := s } = FileNode.shape n := rfl
  rw [hs]
  symm
  apply set_of_getElem?_some
  rw [List.getElem?_map, h]
  rfl

/-! ## C10: out-of-range indices are safe -/

/-- C10: for every out-of-range index, `get_node` and `get_node_mut` return
`None`, and `set_state` and `toggle_state` return without effect, leaving
every node of the tree unchanged. -/
theorem c10_out_of_range_safe (t : DirectoryTree) (i : Nat)
    (h : t.nodes.length ≤ i) (s : SelectionState) :
    get_node t i = none ∧ get_node_mut t i = none ∧
    set_state t i s = t ∧ toggle_state t i = t := by
  have hn : t.nodes[i]? = none := List.getElem?_eq_none h
  refine ⟨hn, hn, ?_, ?_⟩
  · simp only [set_state, hn]
  · simp only [toggle_state, hn]

/-- Witness for C10 at a concrete tree and index. -/
theorem c10_out_of_range_safe_witness :
    (DirectoryTree.new ["r"]).nodes.length ≤ 5 ∧
      (get_node (DirectoryTree.new ["r"]) 5 = none ∧
       get_node_mut (DirectoryTree.new ["r"]) 5 = none ∧
       set_state (DirectoryTree.new ["r"]) 5 SelectionState.Included = DirectoryTree.new ["r"] ∧
       toggle_state (DirectoryTree.new ["r"]) 5 = DirectoryTree.new ["r"]) :=
  ⟨by decide, c10_out_of_range_safe (DirectoryTree.new ["r"]) 5 (by decide)
    SelectionState.Included⟩

/-! ## C9: the content sniff fallback -/

/-- C9: for a file not recognized by the extension allow-list, the content
sniff inspects at most the first 8192 bytes: a failed or empty read is not
text; a NUL byte anywhere in the sample forces not-text regardless of the
printable ratio; a magic-number hit (`infer`) forces not-text; and otherwise
the verdict is exactly the ≥95% printable-byte ratio (stated as the exact
rational comparison `20·printable ≥ 19·sampled`, which the `f64` computation
of the source realises, see `is_likely_text`), with `countPrintable` counting
printable ASCII, tab/CR/LF, and the bytes of complete valid multi-byte UTF-8
sequences fully contained in the sample.  The final conjunct states the
8192-byte locality: two files agreeing on their first 8192 bytes classify
identically. -/
theorem c9_content_sniff (fs : FS) (path : List String) :
    (fs.read path = none → is_text_by_content fs path = false) ∧
    (fs.read path = some [] → is_text_by_content fs path = false) ∧
    (∀ content, fs.read path = some content → 0 ∈ content.take SAMPLE_SIZE →
      is_text_by_content fs path = false) ∧
    (∀ content, fs.read path = some content →
      fs.inferDetects (content.take SAMPLE_SIZE) = true →
      is_text_by_content fs path = false) ∧
    (∀ content, fs.read path = some content → content ≠ [] →
      fs.inferDetects (content.take SAMPLE_SIZE) = false →
      (0 ∈ content.take SAMPLE_SIZE → False) →
      is_text_by_content fs path =
        decide (19 * (content.take SAMPLE_SIZE).length ≤
          20 * countPrintable (content.take SAMPLE_SIZE))) ∧
    (∀ (fs' : FS) content content', fs.read path = some content →
      fs'.read path = some content' → fs'.inferDetects = fs.inferDetects →
      content.take SAMPLE_SIZE = content'.take SAMPLE_SIZE →
      is_text_by_content fs path = is_text_by_content fs' path) := by
  refine ⟨?_, ?_, ?_, ?_, ?_, ?_⟩
  · intro h; simp only [is_text_by_content, h]
  · intro h; simp [is_text_by_content, h]
  · intro content h hz
    simp only [is_text_by_content, h]
    have hlen : ¬ (content.take SAMPLE_SIZE).length = 0 := by
      intro h0
      rw [List.length_eq_zero] at h0
      rw [h0] at hz
      simp at hz
    rw [if_neg hlen]
    by_cases hi : fs.inferDetects (content.take SAMPLE_SIZE) = true
    · rw [if_pos hi]
    · rw [if_neg hi]
      unfold is_likely_text
      have : (content.take SAMPLE_SIZE).contains 0 = true := by
        simpa using hz
      rw [if_pos this]
  · intro content h hi
    simp only [is_text_by_content, h]
    by_cases hlen : (content.take SAMPLE_SIZE).length = 0
    · rw [if_pos hlen]
    · rw [if_neg hlen, if_pos hi]
  · intro content h hne hi hz
    simp only [is_text_by_content, h]
    have hlen : ¬ (content.take SAMPLE_SIZE).length = 0 := by
      intro h0
      rw [List.length_eq_zero] at h0
      have hl := congrArg List.length h0
      simp only [List.length_take, List.length_nil] at hl
      rw [show SAMPLE_SIZE = 8192 from rfl] at hl
      have : content.length = 0 := by omega
      exact hne (List.length_eq_zero.mp this)
    rw [if_neg hlen, if_neg (by rw [hi]; exact Bool.false_ne_true)]
    unfold is_likely_text
    rw [if_neg (by intro hc; exact hz (by simpa using hc))]
  · intro fs' content content' h h' hinfer heq
    simp only [is_text_by_content, h, h', heq, hinfer]

/-- Witness for C9: the sample `[65, 0, 66]` (NUL embedded, printable ratio
still 2/3 < 95% irrelevant) is classified not-text. -/
theorem c9_content_sniff_witness :
    ((fun (_ : List String) => some [65, 0, 66]) ["f"] = some [65, 0, 66] ∧
     (0 : Nat) ∈ ([65, 0, 66] : List Nat).take SAMPLE_SIZE) ∧
    is_text_by_content
      { read := fun _ => some [65, 0, 66], inferDetects := fun _ => false } ["f"] = false :=
  ⟨⟨rfl, by decide⟩,
    (c9_content_sniff
      { read := fun _ => some [65, 0, 66], inferDetects := fun _ => false } ["f"]).2.2.1
      [65, 0, 66] rfl (by decide)⟩

/-! ## C7: `path_matches_pattern` semantics -/

theorem replaceList_cons_no {s : List Char} {pat rep : List Char} {c : Char}
    (h : ¬ (pat ≠ [] ∧ pat.isPrefixOf (c :: s) = true)) :
    replaceList (c :: s) pat rep = c :: replaceList s pat rep := by
  show replaceListF (s.length + 1) (c :: s) pat rep = _
  simp only [replaceListF]
  rw [if_neg h]
  rfl

theorem replaceList_cons_yes {s : List Char} {pat rep : List Char} {c : Char}
    (hne : pat ≠ []) (h : pat.isPrefixOf (c :: s) = true) :
    replaceList (c :: s) pat rep =
      rep ++ replaceList (s.drop (pat.length - 1)) pat rep := by
  show replaceListF (s.length + 1) (c :: s) pat rep = _
  simp only [replaceListF]
  rw [if_pos ⟨hne, h⟩]
  unfold replaceList
  rw [replaceListF_congr s.length (s.drop (pat.length - 1)).length _ pat rep
    (by simp [List.length_drop]) (le_refl _)]

/-- Single-character needle, matching head. -/
theorem replaceList_one_yes {s : List Char} {rep : List Char} {c : Char} :
    replaceList (c :: s) [c] rep = rep ++ replaceList s [c] rep := by
  rw [replaceList_cons_yes (by simp) (by simp [List.isPrefixOf_cons₂])]
  simp

/-- Single-character needle, non-matching head. -/
theorem replaceList_one_no {s : List Char} {rep : List Char} {c d : Char}
    (h : c ≠ d) :
    replaceList (c :: s) [d] rep = c :: replaceList s [d] rep := by
  apply replaceList_cons_no
  intro hcontra
  have := hcontra.2
  simp [List.isPrefixOf_cons₂] at this
  exact h this.symm

/-- Double-star needle on a non-star head. -/
theorem replaceList_ss_no {s : List Char} {rep : List Char} {c : Char}
    (h : c ≠ '*') :
    replaceList (c :: s) ['*', '*'] rep = c :: replaceList s ['*', '*'] rep := by
  apply replaceList_cons_no
  intro hcontra
  have := hcontra.2
  simp [List.isPrefixOf_cons₂] at this
  exact h this.1.symm

/-- Double-star needle on a star head whose successor is not a star. -/
theorem replaceList_ss_single {s : List Char} {rep : List Char}
    (h : s.head? ≠ some '*') :
    replaceList ('*' :: s) ['*', '*'] rep = '*' :: replaceList s ['*', '*'] rep := by
  apply replaceList_cons_no
  intro hcontra
  have h2 := hcontra.2
  cases s with
  | nil => simp [List.isPrefixOf_cons₂] at h2
  | cons d s' =>
    simp [List.isPrefixOf_cons₂] at h2
    exact h (by simp [h2.symm])

/-- Double-star needle on two stars. -/
theorem replaceList_ss_yes {s : List Char} {rep : List Char} :
    replaceList ('*' :: '*' :: s) ['*', '*'] rep = rep ++ replaceList s ['*', '*'] rep := by
  rw [replaceList_cons_yes (by simp) (by simp [List.isPrefixOf_cons₂])]
  simp

theorem regexTranslate_eq_stages (p : List Char) :
    regexTranslate p = trStage4 (trStage3 (trStage2 (trStage1 p))) := rfl

theorem trStage1_head {r : List Char} (h : r.head? ≠ some '*') :
    (trStage1 r).head? ≠ some '*' := by
  cases r with
  | nil => simp [trStage1, replaceList, replaceListF]
  | cons c r' =>
    rcases eq_or_ne c '.' with rfl | hc
    · rw [trStage1, replaceList_one_yes]; simp
    · rw [trStage1, replaceList_one_no hc]
      simpa using h

theorem regexTranslate_nil : regexTranslate [] = [] := rfl

theorem regexTranslate_dot (r : List Char) :
    regexTranslate ('.' :: r) = '\\' :: '.' :: regexTranslate r := by
  rw [regexTranslate_eq_stages, regexTranslate_eq_stages]
  rw [trStage1, replaceList_one_yes]
  rw [show (['\\', '.'] : List Char) ++ replaceList r ['.'] ['\\', '.'] =
    '\\' :: '.' :: trStage1 r from rfl]
  rw [trStage2, replaceList_ss_no (by decide), replaceList_ss_no (by decide)]
  rw [show ('\\' : Char) :: '.' :: replaceList (trStage1 r) ['*', '*'] ['.', '*'] =
    '\\' :: '.' :: trStage2 (trStage1 r) from rfl]
  rw [trStage3, replaceList_one_no (by decide), replaceList_one_no (by decide)]
  rw [show ('\\' : Char) :: '.' :: replaceList (trStage2 (trStage1 r)) ['*'] _ =
    '\\' :: '.' :: trStage3 (trStage2 (trStage1 r)) from rfl]
  rw [trStage4, replaceList_one_no (by decide), replaceList_one_no (by decide)]
  rfl

theorem regexTranslate_qm (r : List Char) :
    regexTranslate ('?' :: r) = '.' :: regexTranslate r := by
  rw [regexTranslate_eq_stages, regexTranslate_eq_stages]
  rw [trStage1, replaceList_one_no (by decide)]
  rw [show ('?' : Char) :: replaceList r ['.'] _ = '?' :: trStage1 r from rfl]
  rw [trStage2, replaceList_ss_no (by decide)]
  rw [show ('?' : Char) :: replaceList (trStage1 r) ['*', '*'] _ =
    '?' :: trStage2 (trStage1 r) from rfl]
  rw [trStage3, replaceList_one_no (by decide)]
  rw [show ('?' : Char) :: replaceList (trStage2 (trStage1 r)) ['*'] _ =
    '?' :: trStage3 (trStage2 (trStage1 r)) from rfl]
  rw [trStage4, replaceList_one_yes]
  rfl

theorem regexTranslate_other {c : Char} (r : List Char)
    (h1 : c ≠ '.') (h2 : c ≠ '*') (h3 : c ≠ '?') :
    regexTranslate (c :: r) = c :: regexTranslate r := by
  rw [regexTranslate_eq_stages, regexTranslate_eq_stages]
  rw [trStage1, replaceList_one_no h1]
  rw [show c :: replaceList r ['.'] _ = c :: trStage1 r from rfl]
  rw [trStage2, replaceList_ss_no h2]
  rw [show c :: replaceList (trStage1 r) ['*', '*'] _ = c :: trStage2 (trStage1 r) from rfl]
  rw [trStage3, replaceList_one_no h2]
  rw [show c :: replaceList (trStage2 (trStage1 r)) ['*'] _ =
    c :: trStage3 (trStage2 (trStage1 r)) from rfl]
  rw [trStage4, replaceList_one_no h3]
  rfl

theorem regexTranslate_ss (r : List Char) :
    regexTranslate ('*' :: '*' :: r) =
      '.' :: '[' :: '^' :: '/' :: ']' :: '*' :: regexTranslate r := by
  rw [regexTranslate_eq_stages, regexTranslate_eq_stages]
  rw [trStage1, replaceList_one_no (by decide), replaceList_one_no (by decide)]
  rw [show ('*' : Char) :: '*' :: replaceList r ['.'] _ =
    '*' :: '*' :: trStage1 r from rfl]
  rw [trStage2, replaceList_ss_yes]
  rw [show (['.', '*'] : List Char) ++ replaceList (trStage1 r) ['*', '*'] _ =
    '.' :: '*' :: trStage2 (trStage1 r) from rfl]
  rw [trStage3, replaceList_one_no (by decide), replaceList_one_yes]
  rw [show (['[', '^', '/', ']', '*'] : List Char) ++
      replaceList (trStage2 (trStage1 r)) ['*'] _ =
    '[' :: '^' :: '/' :: ']' :: '*' :: trStage3 (trStage2 (trStage1 r)) from rfl]
  rw [trStage4]
  rw [replaceList_one_no (by decide), replaceList_one_no (by decide),
    replaceList_one_no (by decide), replaceList_one_no (by decide),
    replaceList_one_no (by decide), replaceList_one_no (by decide)]
  rfl

theorem regexTranslate_star (r : List Char) (h : r.head? ≠ some '*') :
    regexTranslate ('*' :: r) =
      '[' :: '^' :: '/' :: ']' :: '*' :: regexTranslate r := by
  rw [regexTranslate_eq_stages, regexTranslate_eq_stages]
  rw [trStage1, replaceList_one_no (by decide)]
  rw [show ('*' : Char) :: replaceList r ['.'] _ = '*' :: trStage1 r from rfl]
  rw [trStage2, replaceList_ss_single (trStage1_head h)]
  rw [show ('*' : Char) :: replaceList (trStage1 r) ['*', '*'] _ =
    '*' :: trStage2 (trStage1 r) from rfl]
  rw [trStage3, replaceList_one_yes]
  rw [show (['[', '^', '/', ']', '*'] : List Char) ++
      replaceList (trStage2 (trStage1 r)) ['*'] _ =
    '[' :: '^' :: '/' :: ']' :: '*' :: trStage3 (trStage2 (trStage1 r)) from rfl]
  rw [trStage4]
  rw [replaceList_one_no (by decide), replaceList_one_no (by decide),
    replaceList_one_no (by decide), replaceList_one_no (by decide),
    replaceList_one_no (by decide)]
  rfl

theorem parse_backslash (c : Char) (rest : List Char) :
    parseRegexTokens ('\\' :: c :: rest) =
      (parseRegexTokens rest).map (fun ts => RTok.lit c :: ts) := by
  have e := parseRegexTokensF_congr (rest.length + 1) rest.length rest
    (by omega) (le_refl _)
  show parseRegexTokensF (rest.length + 1 + 1) ('\\' :: c :: rest) = _
  simp [parseRegexTokens, parseRegexTokensF, e]

theorem parse_class (rest : List Char) :
    parseRegexTokens ('[' :: '^' :: '/' :: ']' :: '*' :: rest) =
      (parseRegexTokens rest).map (fun ts => RTok.nonSlashStar :: ts) := by
  have e := parseRegexTokensF_congr (rest.length + 4) rest.length rest
    (by omega) (le_refl _)
  show parseRegexTokensF (rest.length + 4 + 1) ('[' :: '^' :: '/' :: ']' :: '*' :: rest) = _
  simp [parseRegexTokens, parseRegexTokensF, e]

theorem parse_dot (rest : List Char) :
    parseRegexTokens ('.' :: rest) =
      (parseRegexTokens rest).map (fun ts => RTok.anyChar :: ts) := by
  show parseRegexTokensF (rest.length + 1) ('.' :: rest) = _
  simp [parseRegexTokens, parseRegexTokensF]

theorem parse_lit (c : Char) (rest : List Char)
    (h1 : regexMeta.contains c = false) (h2 : c ≠ '.') :
    parseRegexTokens (c :: rest) =
      (parseRegexTokens rest).map (fun ts => RTok.lit c :: ts) := by
  have hb : c ≠ '\\' := by
    intro h; rw [h] at h1; exact absurd h1 (by decide)
  have hlb : c ≠ '[' := by
    intro h; rw [h] at h1; exact absurd h1 (by decide)
  have h1' : ¬ c ∈ regexMeta := by simpa using h1
  show parseRegexTokensF (rest.length + 1) (c :: rest) = _
  simp [parseRegexTokens, parseRegexTokensF, hb, hlb, h2, h1']

theorem globTokens_ss (r : List Char) :
    globTokens ('*' :: '*' :: r) = RTok.anyChar :: RTok.nonSlashStar :: globTokens r := rfl

theorem globTokens_star_nil : globTokens ['*'] = [RTok.nonSlashStar] := rfl

theorem globTokens_star (c2 : Char) (r : List Char) (h : c2 ≠ '*') :
    globTokens ('*' :: c2 :: r) = RTok.nonSlashStar :: globTokens (c2 :: r) := by
  rw [globTokens.eq_def]
  show (if c2 = '*' then RTok.anyChar :: RTok.nonSlashStar :: globTokens r
    else RTok.nonSlashStar :: globTokens (c2 :: r)) = _
  rw [if_neg h]

theorem globTokens_qm (r : List Char) :
    globTokens ('?' :: r) = RTok.anyChar :: globTokens r := by
  rw [globTokens.eq_def]
  rfl

theorem globTokens_other (c : Char) (r : List Char) (h1 : c ≠ '*') (h2 : c ≠ '?') :
    globTokens (c :: r) = RTok.lit c :: globTokens r := by
  rw [globTokens.eq_def]
  show (if c = '*' then _ else if c = '?' then _ else RTok.lit c :: globTokens r) = _
  rw [if_neg h1, if_neg h2]

/-- On glob-safe patterns (no regex metacharacters beyond the glob characters
themselves) the translated regex always parses, into exactly the atoms
`globTokens` describes: `**` becomes one arbitrary character followed by a
separator-free run, single `*` a separator-free run, `?` one character, and
everything else (including `.`) a literal. -/
theorem translate_safe : ∀ (p : List Char),
    (∀ c ∈ p, regexMeta.contains c = false ∨ c = '*' ∨ c = '?') →
    parseRegexTokens (regexTranslate p) = some (globTokens p) := by
  have main : ∀ (n : Nat) (p : List Char), p.length ≤ n →
      (∀ c ∈ p, regexMeta.contains c = false ∨ c = '*' ∨ c = '?') →
      parseRegexTokens (regexTranslate p) = some (globTokens p) := by
    intro n
    induction n with
    | zero =>
      intro p hp _
      have : p = [] := List.length_eq_zero.mp (Nat.le_zero.mp hp)
      subst this
      decide
    | succ n ih =>
      intro p hp hsafe
      cases p with
      | nil => decide
      | cons c r =>
        simp only [List.length_cons, Nat.add_le_add_iff_right] at hp
        have hsafer : ∀ d ∈ r, regexMeta.contains d = false ∨ d = '*' ∨ d = '?' :=
          fun d hd => hsafe d (List.mem_cons_of_mem c hd)
        by_cases hdot : c = '.'
        · subst hdot
          rw [regexTranslate_dot, parse_backslash, ih r hp hsafer]
          rw [globTokens_other '.' r (by decide) (by decide)]
          rfl
        by_cases hqm : c = '?'
        · subst hqm
          rw [regexTranslate_qm, parse_dot, ih r hp hsafer]
          rw [globTokens_qm]
          rfl
        by_cases hstar : c = '*'
        · subst hstar
          cases r with
          | nil => decide
          | cons c2 r' =>
            simp only [List.length_cons] at hp
            have hsafer' : ∀ d ∈ r', regexMeta.contains d = false ∨ d = '*' ∨ d = '?' :=
              fun d hd => hsafer d (List.mem_cons_of_mem c2 hd)
            by_cases h2 : c2 = '*'
            · subst h2
              rw [regexTranslate_ss, parse_dot, parse_class,
                ih r' (by omega) hsafer', globTokens_ss]
              rfl
            · rw [regexTranslate_star (c2 :: r') (by simp [h2]),
                parse_class, ih (c2 :: r') (by simp; omega) hsafer,
                globTokens_star c2 r' h2]
              rfl
        · have hcont : regexMeta.contains c = false := by
            rcases hsafe c (List.mem_cons_self c r) with h | h | h
            · exact h
            · exact absurd h hstar
            · exact absurd h hqm
          rw [regexTranslate_other r hdot hstar hqm, parse_lit c _ hcont hdot,
            ih r hp hsafer, globTokens_other c r hstar hqm]
          rfl
  exact fun p => main p.length p (le_refl _)

/-- C7 counterexample: `"a**b"` falls into the translation branch (it is not
`"**/*"` and neither starts nor ends with `'*'`), so under the claim `**`
would match the empty sequence and `"a**b"` would match `"ab"`; the code's
sequential replacement turns `**` into `.[^/]*` (one mandatory character and
then a separator-free run), so `"ab"` does not match while `"a/b"` does. -/
theorem c7_counterexample :
    ("a**b".toList ≠ "**/*".toList ∧ "a**b".toList.getLast? ≠ some '*' ∧
      "a**b".toList.head? ≠ some '*') ∧
    path_matches_pattern "ab".toList "a**b".toList = false ∧
    path_matches_pattern "a/b".toList "a**b".toList = true := by
  decide

/-- C7 (amended): `path_matches_pattern` implements: `"**/*"` matches every
path; a pattern ending in `'*'` matches exactly the paths with the remainder
as a prefix; a pattern starting with `'*'` matches exactly the paths with the
remainder as a suffix; any other pattern free of regex metacharacters matches
as an anchored wildcard in which `**` matches exactly one arbitrary character
followed by any separator-free sequence (not an arbitrary sequence: the
single-`*` replacement also rewrites the `*` introduced for `**`, giving
`.[^/]*`), a single `*` matches a separator-free sequence, `?` matches one
character and `.` is literal; on a malformed translation it falls back to
exact string equality.  `"*.rs"` matches `"src/main.rs"` but not
`"src/main.rs.bak"`. -/
theorem c7_path_matches_pattern_amended :
    (∀ path : List Char, path_matches_pattern path "**/*".toList = true) ∧
    (∀ path pattern : List Char, pattern ≠ "**/*".toList →
      pattern.getLast? = some '*' →
      path_matches_pattern path pattern = pattern.dropLast.isPrefixOf path) ∧
    (∀ path pattern : List Char, pattern ≠ "**/*".toList →
      pattern.getLast? ≠ some '*' → pattern.head? = some '*' →
      path_matches_pattern path pattern = (pattern.drop 1).isSuffixOf path) ∧
    (∀ path pattern : List Char, pattern ≠ "**/*".toList →
      pattern.getLast? ≠ some '*' → pattern.head? ≠ some '*' →
      (∀ c ∈ pattern, regexMeta.contains c = false ∨ c = '*' ∨ c = '?') →
      path_matches_pattern path pattern = rmatch (globTokens pattern) path) ∧
    (∀ path pattern : List Char, pattern ≠ "**/*".toList →
      pattern.getLast? ≠ some '*' → pattern.head? ≠ some '*' →
      parseRegexTokens (regexTranslate pattern) = none →
      path_matches_pattern path pattern = decide (path = pattern)) ∧
    (path_matches_pattern "src/main.rs".toList "*.rs".toList = true ∧
     path_matches_pattern "src/main.rs.bak".toList "*.rs".toList = false) := by
  refine ⟨?_, ?_, ?_, ?_, ?_, by decide⟩
  · intro path
    simp [path_matches_pattern]
  · intro path pattern h1 h2
    unfold path_matches_pattern
    rw [if_neg h1, if_pos h2]
  · intro path pattern h1 h2 h3
    unfold path_matches_pattern
    rw [if_neg h1, if_neg h2, if_pos h3]
  · intro path pattern h1 h2 h3 hsafe
    unfold path_matches_pattern
    rw [if_neg h1, if_neg h2, if_neg h3, translate_safe pattern hsafe]
  · intro path pattern h1 h2 h3 hmal
    unfold path_matches_pattern
    rw [if_neg h1, if_neg h2, if_neg h3, hmal]

/-- Witness for C7 at the concrete pattern `"a*b"` and path `"axy"`. -/
theorem c7_path_matches_pattern_witness :
    ("a*b".toList ≠ "**/*".toList ∧ "a*b".toList.getLast? ≠ some '*' ∧
      "a*b".toList.head? ≠ some '*' ∧
      (∀ c ∈ "a*b".toList, regexMeta.contains c = false ∨ c = '*' ∨ c = '?')) ∧
    path_matches_pattern "axy".toList "a*b".toList =
      rmatch (globTokens "a*b".toList) "axy".toList :=
  ⟨by decide, (c7_path_matches_pattern_amended).2.2.2.1 "axy".toList "a*b".toList
    (by decide) (by decide) (by decide) (by decide)⟩

/-! ## C5: `get_all_included_files` -/

theorem collect_eq_preorder_filter : ∀ (fuel : Nat) (t : DirectoryTree)
    (index : Nat) (acc : List FileNode),
    collect_included_files fuel t index acc =
      acc ++ ((preorderIndices fuel t index).filterMap
        (fun i => t.nodes[i]?)).filter includedFilePred := by
  intro fuel
  induction fuel with
  | zero =>
    intro t index acc
    simp [collect_included_files, preorderIndices]
  | succ fuel ih =>
    intro t index acc
    have hfold : ∀ (cs : List Nat) (acc0 : List FileNode),
        cs.foldl (fun a ci => collect_included_files fuel t ci a) acc0 =
          acc0 ++ ((cs.flatMap (fun ci => preorderIndices fuel t ci)).filterMap
            (fun i => t.nodes[i]?)).filter includedFilePred := by
      intro cs
      induction cs with
      | nil => intro acc0; simp
      | cons c cs' ihc =>
        intro acc0
        simp only [List.foldl_cons, List.flatMap_cons]
        rw [ihc (collect_included_files fuel t c acc0), ih t c acc0]
        simp [List.filterMap_append, List.filter_append, List.append_assoc]
    cases h : t.nodes[index]? with
    | none =>
      simp only [collect_included_files, preorderIndices, h]
      simp
    | some node =>
      simp only [collect_included_files, preorderIndices, h]
      rw [hfold]
      by_cases hp : includedFilePred node
      · have hp' : (node.state.is_included && !node.is_directory && node.is_text_file) = true := hp
        rw [if_pos hp']
        simp [List.filterMap_cons, h, List.filter_cons, hp]
      · have hp' : ¬ (node.state.is_included && !node.is_directory && node.is_text_file) = true := hp
        rw [if_neg hp']
        simp [List.filterMap_cons, h, List.filter_cons, hp]

/-- C5 (amended): `get_all_included_files` returns exactly the non-directory
text-file nodes whose state passes `is_included` — that is, `Included` or
`Partial`, the latter reachable on a file through `set_state(file, Partial)`
— in pre-order depth-first order from the root with children in insertion
order; directory nodes are never returned, even when `Included`. -/
theorem c5_get_all_included_files_amended (t : DirectoryTree) :
    get_all_included_files t =
      ((preorderIndices t.nodes.length t t.root_index).filterMap
        (fun i => t.nodes[i]?)).filter includedFilePred := by
  unfold get_all_included_files
  rw [collect_eq_preorder_filter]
  simp

/-- C5 counterexample: `get_all_included_files` is not "exactly the text
files whose state is Included": on `treeC5` it returns the file `f.rs` whose
state is `Partial` (the source tests `is_included()`, which accepts
`Partial`). -/
theorem c5_counterexample :
    (get_all_included_files treeC5).map (fun n => n.state) = [SelectionState.Partial] ∧
    (treeC5.nodes[1]?).map (fun n => n.is_text_file) = some true ∧
    (treeC5.nodes[1]?).map (fun n => n.is_directory) = some false := by
  decide

/-! ## Effects of `propagate_to_children` -/

theorem setStateAt_sameShape (nodes : List FileNode) (i : Nat) (s : SelectionState) :
    sameShape nodes (setStateAt nodes i s) := by
  unfold setStateAt
  cases h : nodes[i]? with
  | none => exact sameShape.rfl
  | some n => exact sameShape_set_state h s

theorem setStateAt_getElem_ne {nodes : List FileNode} {i j : Nat} (s : SelectionState)
    (h : j ≠ i) : (setStateAt nodes i s)[j]? = nodes[j]? := by
  unfold setStateAt
  cases hn : nodes[i]? with
  | none => rfl
  | some n => exact List.getElem?_set_ne (fun he => h he.symm)

theorem setStateAt_getElem_self {nodes : List FileNode} {i : Nat} {n : FileNode}
    (s : SelectionState) (h : nodes[i]? = some n) :
    (setStateAt nodes i s)[i]? = some { n with state := s } := by
  unfold setStateAt
  rw [h]
  exact List.getElem?_set_self (List.getElem?_eq_some_iff.mp h).1

/-- The per-element write of `setStateAt`, as a preserve-or-overwrite
disjunction. -/
theorem setStateAt_cases (nodes : List FileNode) (i j : Nat) (s : SelectionState) :
    (setStateAt nodes i s)[j]? = nodes[j]? ∨
      (setStateAt nodes i s)[j]? = (nodes[j]?).map (fun n => { n with state := s }) := by
  rcases eq_or_ne j i with rfl | hne
  · cases h : nodes[j]? with
    | none =>
      left; unfold setStateAt; rw [h]; exact h
    | some n =>
      right; rw [setStateAt_getElem_self s h]; rfl
  · left; exact setStateAt_getElem_ne s hne

theorem ptc_sameShape : ∀ (fuel : Nat) (nodes : List FileNode) (pi : Nat)
    (s : SelectionState), sameShape nodes (propagate_to_children fuel nodes pi s) := by
  intro fuel
  induction fuel with
  | zero => intro nodes pi s; exact sameShape.rfl
  | succ fuel ih =>
    intro nodes pi s
    by_cases hs : s = SelectionState.Partial
    · simp only [propagate_to_children, if_pos hs]; exact sameShape.rfl
    · simp only [propagate_to_children, if_neg hs]
      have helper : ∀ (cs : List Nat) (acc : List FileNode),
          sameShape acc (cs.foldl (fun acc child_index =>
            propagate_to_children fuel (setStateAt acc child_index s) child_index s)
            acc) := by
        intro cs
        induction cs with
        | nil => intro acc; exact sameShape.rfl
        | cons c cs' ihc =>
          intro acc
          rw [List.foldl_cons]
          exact ((setStateAt_sameShape acc c s).trans
            (ih (setStateAt acc c s) c s)).trans (ihc _)
      exact helper _ nodes

/-- `Option.map` of a state overwrite is idempotent. -/
theorem mapState_idem (o : Option FileNode) (s : SelectionState) :
    (o.map (fun n => { n with state := s })).map (fun n => { n with state := s }) =
      o.map (fun n => { n with state := s }) := by
  cases o <;> rfl

theorem stateWrite_compose {a b c : Option FileNode} {s : SelectionState}
    (h1 : b = a ∨ b = a.map (fun n => { n with state := s }))
    (h2 : c = b ∨ c = b.map (fun n => { n with state := s })) :
    c = a ∨ c = a.map (fun n => { n with state := s }) := by
  rcases h1 with rfl | rfl
  · exact h2
  · rcases h2 with rfl | rfl
    · right; rfl
    · right; rw [mapState_idem]

/-- `propagate_to_children` either leaves an entry alone or overwrites its
state with `s`. -/
theorem ptc_states : ∀ (fuel : Nat) (nodes : List FileNode) (pi : Nat)
    (s : SelectionState) (j : Nat),
    (propagate_to_children fuel nodes pi s)[j]? = nodes[j]? ∨
      (propagate_to_children fuel nodes pi s)[j]? =
        (nodes[j]?).map (fun n => { n with state := s }) := by
  intro fuel
  induction fuel with
  | zero => intro nodes pi s j; left; rfl
  | succ fuel ih =>
    intro nodes pi s j
    by_cases hs : s = SelectionState.Partial
    · left; simp only [propagate_to_children, if_pos hs]
    · simp only [propagate_to_children, if_neg hs]
      have helper : ∀ (cs : List Nat) (acc : List FileNode),
          (acc[j]? = nodes[j]? ∨
            acc[j]? = (nodes[j]?).map (fun n => { n with state := s })) →
          ((cs.foldl (fun acc child_index =>
            propagate_to_children fuel (setStateAt acc child_index s) child_index s)
            acc)[j]? = nodes[j]? ∨
           (cs.foldl (fun acc child_index =>
            propagate_to_children fuel (setStateAt acc child_index s) child_index s)
            acc)[j]? = (nodes[j]?).map (fun n => { n with state := s })) := by
        intro cs
        induction cs with
        | nil => intro acc h; exact h
        | cons c cs' ihc =>
          intro acc h
          rw [List.foldl_cons]
          apply ihc
          exact stateWrite_compose h
            (stateWrite_compose (setStateAt_cases acc c j s) (ih _ c s j))
      exact helper _ nodes (Or.inl rfl)

/-- `propagate_to_children` does not touch entries outside the subtree below
`pi`. -/
theorem ptc_outside : ∀ (fuel : Nat) (nodes : List FileNode) (pi : Nat)
    (s : SelectionState) (j : Nat), ¬ DescEq nodes pi j →
    (propagate_to_children fuel nodes pi s)[j]? = nodes[j]? := by
  intro fuel
  induction fuel with
  | zero => intro nodes pi s j _; rfl
  | succ fuel ih =>
    intro nodes pi s j hj
    by_cases hs : s = SelectionState.Partial
    · simp only [propagate_to_children, if_pos hs]
    · simp only [propagate_to_children, if_neg hs]
      have helper : ∀ (cs : List Nat) (acc : List FileNode),
          sameShape nodes acc →
          (∀ c ∈ cs, childOf nodes pi c) →
          acc[j]? = nodes[j]? →
          (cs.foldl (fun acc child_index =>
            propagate_to_children fuel (setStateAt acc child_index s) child_index s)
            acc)[j]? = nodes[j]? := by
        intro cs
        induction cs with
        | nil => intro acc _ _ h; exact h
        | cons c cs' ihc =>
          intro acc hshape hch hacc
          rw [List.foldl_cons]
          have hcchild : childOf nodes pi c := hch c (List.mem_cons_self c cs')
          have hjc : j ≠ c := by
            intro he
            exact hj (Relation.ReflTransGen.single (he ▸ hcchild))
          have hshape1 : sameShape nodes (setStateAt acc c s) :=
            hshape.trans (setStateAt_sameShape acc c s)
          have hndesc : ¬ DescEq (setStateAt acc c s) c j := by
            intro hd
            rw [← hshape1.descEq_eq] at hd
            exact hj (Relation.ReflTransGen.head hcchild hd)
          apply ihc
          · exact hshape1.trans (ptc_sameShape fuel (setStateAt acc c s) c s)
          · exact fun d hd => hch d (List.mem_cons_of_mem c hd)
          · rw [ih (setStateAt acc c s) c s j hndesc,
              setStateAt_getElem_ne s hjc, hacc]
      exact helper _ nodes sameShape.rfl (fun c hc => hc) rfl

theorem ptc_partial : ∀ (fuel : Nat) (nodes : List FileNode) (pi : Nat),
    propagate_to_children fuel nodes pi SelectionState.Partial = nodes := by
  intro fuel nodes pi
  cases fuel with
  | zero => rfl
  | succ fuel => simp [propagate_to_children]

/-- Every descendant of `pi` ends with state `s` after propagation, for
non-`Partial` `s`, on a well-formed arena, with fuel at least
`nodes.length - pi`. -/
theorem ptc_desc {s : SelectionState} (hs : s ≠ SelectionState.Partial) :
    ∀ (fuel : Nat) (nodes : List FileNode) (pi : Nat),
    WF nodes → nodes.length ≤ fuel + pi →
    ∀ j, Desc nodes pi j →
    stateOf (propagate_to_children fuel nodes pi s) j = some s := by
  intro fuel
  induction fuel with
  | zero =>
    intro nodes pi hwf hlen j hdesc
    obtain ⟨h1, h2⟩ := hwf.desc_lt hdesc
    omega
  | succ fuel ih =>
    intro nodes pi hwf hlen j hdesc
    simp only [propagate_to_children, if_neg hs]
    obtain ⟨c0, hc0, hc0j⟩ := Relation.TransGen.head'_iff.mp hdesc
    have hpres : ∀ (ds : List Nat) (acc2 : List FileNode),
        stateOf acc2 j = some s →
        stateOf (ds.foldl (fun acc ci =>
          propagate_to_children fuel (setStateAt acc ci s) ci s) acc2) j = some s := by
      intro ds
      induction ds with
      | nil => intro acc2 h2; exact h2
      | cons d ds' ihd =>
        intro acc2 h2
        rw [List.foldl_cons]
        apply ihd
        have hcomp := stateWrite_compose (setStateAt_cases acc2 d j s)
          (ptc_states fuel (setStateAt acc2 d s) d s j)
        unfold stateOf at h2 ⊢
        rcases hcomp with h3 | h3
        · rw [h3]; exact h2
        · rw [h3]
          cases hn : acc2[j]? with
          | none => rw [hn] at h2; simp at h2
          | some n => rfl
    have helper : ∀ (cs : List Nat) (acc : List FileNode),
        sameShape nodes acc →
        ∀ c, c ∈ cs → DescEq nodes c j → childOf nodes pi c →
        stateOf (cs.foldl (fun acc ci =>
          propagate_to_children fuel (setStateAt acc ci s) ci s) acc) j = some s := by
      intro cs
      induction cs with
      | nil => intro acc _ c hc; exact absurd hc (List.not_mem_nil c)
      | cons c0' cs' ihc =>
        intro acc hshape c hmem hdescEq hchild
        rw [List.foldl_cons]
        rcases List.mem_cons.mp hmem with heq | hmem'
        · subst heq
          have hshape1 : sameShape nodes (setStateAt acc c s) :=
            hshape.trans (setStateAt_sameShape acc c s)
          have hstep : stateOf (propagate_to_children fuel (setStateAt acc c s) c s) j
              = some s := by
            rcases Relation.reflTransGen_iff_eq_or_transGen.mp hdescEq with heq2 | hdesc'
            · subst heq2
              have hjlen : j < nodes.length := (hwf.child_facts hchild).2.1
              have hjacc : j < acc.length := by rw [← hshape.length_eq]; exact hjlen
              obtain ⟨nj, hnj⟩ : ∃ nj, acc[j]? = some nj :=
                ⟨_, List.getElem?_eq_getElem hjacc⟩
              have h1 : (setStateAt acc j s)[j]? = some { nj with state := s } :=
                setStateAt_getElem_self s hnj
              rcases ptc_states fuel (setStateAt acc j s) j s j with h2 | h2
              · unfold stateOf; rw [h2, h1]; rfl
              · unfold stateOf; rw [h2, h1]; rfl
            · apply ih (setStateAt acc c s) c ((hshape1.wf_iff).mp hwf)
              · rw [← hshape1.length_eq]
                have := (hwf.child_facts hchild).1
                omega
              · rw [← hshape1.desc_eq]
                exact hdesc'
          exact hpres cs' _ hstep
        · exact ihc _ (hshape.trans ((setStateAt_sameShape acc c0' s).trans
            (ptc_sameShape fuel _ c0' s))) c hmem' hdescEq hchild
    exact helper _ nodes sameShape.rfl c0 hc0 hc0j hc0

/-- `update_parent_state` does not touch entries above `pi`. -/
theorem ups_above : ∀ (fuel : Nat) (nodes : List FileNode) (pi : Nat),
    WF nodes → ∀ j, pi < j →
    (update_parent_state fuel nodes pi)[j]? = nodes[j]? := by
  intro fuel
  induction fuel with
  | zero => intro nodes pi _ j _; rfl
  | succ fuel ih =>
    intro nodes pi hwf j hj
    simp only [update_parent_state]
    by_cases hemp : (childrenD nodes pi).isEmpty
    · rw [if_pos hemp]
    · rw [if_neg hemp]
      have hshape1 : sameShape nodes (setStateAt nodes pi (upsAggregate nodes pi)) :=
        setStateAt_sameShape nodes pi (upsAggregate nodes pi)
      cases hpar : parentIdx (setStateAt nodes pi (upsAggregate nodes pi)) pi with
      | none =>
        exact setStateAt_getElem_ne _ (by omega)
      | some gp =>
        have hrel : parentRel nodes pi gp := by
          unfold parentRel
          rw [hshape1.parentIdx_eq pi]
          exact hpar
        have hgp : gp < pi := (hwf.parent_facts hrel).1
        rw [ih _ gp ((hshape1.wf_iff).mp hwf) j (by omega)]
        exact setStateAt_getElem_ne _ (by omega)

/-! ## C2: downward propagation of `set_state` -/

/-- C2: for a valid `index` on a well-formed arena, `set_state(index, s)` with
`s ≠ Partial` sets the state of `index` and of every descendant, at every
depth, to `s`; with `s = Partial` it records `Partial` only on `index` and
leaves every descendant's entry untouched. -/
theorem c2_set_state_subtree (t : DirectoryTree) (hwf : WF t.nodes) (index : Nat)
    (hi : index < t.nodes.length) (s : SelectionState) :
    (s ≠ SelectionState.Partial →
      stateOf (set_state t index s).nodes index = some s ∧
      ∀ j, Desc t.nodes index j → stateOf (set_state t index s).nodes j = some s) ∧
    (s = SelectionState.Partial →
      stateOf (set_state t index s).nodes index = some SelectionState.Partial ∧
      ∀ j, Desc t.nodes index j → (set_state t index s).nodes[j]? = t.nodes[j]?) := by
  obtain ⟨node, hnode⟩ : ∃ n, t.nodes[index]? = some n :=
    ⟨_, List.getElem?_eq_getElem hi⟩
  have h0idx : (t.nodes.set index { node with state := s })[index]? =
      some { node with state := s } := List.getElem?_set_self hi
  have hshape0 : sameShape t.nodes (t.nodes.set index { node with state := s }) :=
    sameShape_set_state hnode s
  have hwf0 : WF (t.nodes.set index { node with state := s }) :=
    (hshape0.wf_iff).mp hwf
  have hshape1 : sameShape t.nodes
      (propagate_to_children (t.nodes.set index { node with state := s }).length
        (t.nodes.set index { node with state := s }) index s) :=
    hshape0.trans (ptc_sameShape _ _ index s)
  have hwf1 := (hshape1.wf_iff).mp hwf
  have hidx1 : ∀ (hs : s ≠ SelectionState.Partial),
      stateOf (propagate_to_children (t.nodes.set index { node with state := s }).length
        (t.nodes.set index { node with state := s }) index s) index = some s := by
    intro hs
    rcases ptc_states (t.nodes.set index { node with state := s }).length
      (t.nodes.set index { node with state := s }) index s index with h | h
    · unfold stateOf; rw [h, h0idx]; rfl
    · unfold stateOf; rw [h, h0idx]; rfl
  have hdesc1 : ∀ (hs : s ≠ SelectionState.Partial) (j : Nat), Desc t.nodes index j →
      stateOf (propagate_to_children (t.nodes.set index { node with state := s }).length
        (t.nodes.set index { node with state := s }) index s) j = some s := by
    intro hs j hdesc
    apply ptc_desc hs _ _ index hwf0
    · simp
    · rw [← hshape0.desc_eq]; exact hdesc
  cases hpar : node.parent with
  | none =>
    have hres : (set_state t index s).nodes =
        propagate_to_children (t.nodes.set index { node with state := s }).length
          (t.nodes.set index { node with state := s }) index s := by
      simp only [set_state, hnode, hpar]
    constructor
    · intro hs
      refine ⟨by rw [hres]; exact hidx1 hs, fun j hdesc => by
        rw [hres]; exact hdesc1 hs j hdesc⟩
    · intro hs
      subst hs
      rw [hres, ptc_partial]
      constructor
      · unfold stateOf; rw [h0idx]; rfl
      · intro j hdesc
        have hij : index < j := (hwf.desc_lt hdesc).1
        exact List.getElem?_set_ne (by omega)
  | some p =>
    have hrel : parentRel t.nodes index p := by
      unfold parentRel parentIdx
      rw [hnode]
      exact hpar
    have hp : p < index := (hwf.parent_facts hrel).1
    have hres : (set_state t index s).nodes =
        update_parent_state
          (propagate_to_children (t.nodes.set index { node with state := s }).length
            (t.nodes.set index { node with state := s }) index s).length
          (propagate_to_children (t.nodes.set index { node with state := s }).length
            (t.nodes.set index { node with state := s }) index s) p := by
      simp only [set_state, hnode, hpar]
    constructor
    · intro hs
      constructor
      · unfold stateOf
        rw [hres, ups_above _ _ p hwf1 index hp]
        exact hidx1 hs
      · intro j hdesc
        have hij : index < j := (hwf.desc_lt hdesc).1
        unfold stateOf
        rw [hres, ups_above _ _ p hwf1 j (by omega)]
        exact hdesc1 hs j hdesc
    · intro hs
      subst hs
      have hres2 : (set_state t index SelectionState.Partial).nodes =
          update_parent_state
            (t.nodes.set index { node with state := SelectionState.Partial }).length
            (t.nodes.set index { node with state := SelectionState.Partial }) p := by
        rw [hres, ptc_partial]
      constructor
      · unfold stateOf
        rw [hres2, ups_above _ _ p hwf0 index hp, h0idx]
        rfl
      · intro j hdesc
        have hij : index < j := (hwf.desc_lt hdesc).1
        rw [hres2, ups_above _ _ p hwf0 j (by omega)]
        exact List.getElem?_set_ne (by omega)

/-! ## C3: upward aggregation of `set_state` -/

theorem upsAggregate_eq (nodes : List FileNode) (pi : Nat) :
    upsAggregate nodes pi = aggregateStates (childStates nodes pi) := rfl

/-- The counting policy of `update_parent_state`, stated by membership:
`Partial` when some child state is `Partial` or the states mix `Included`
and `Excluded`; else `Included` when some state is `Included`; else
`Excluded`. -/
theorem aggregateStates_policy (states : List SelectionState) :
    aggregateStates states =
      if SelectionState.Partial ∈ states ∨
          (SelectionState.Included ∈ states ∧ SelectionState.Excluded ∈ states) then
        SelectionState.Partial
      else if SelectionState.Included ∈ states then SelectionState.Included
      else SelectionState.Excluded := by
  unfold aggregateStates
  simp only [List.count_pos_iff]

theorem filterMap_congr_aux {α β : Type} (f g : α → Option β) :
    ∀ (l : List α), (∀ a ∈ l, f a = g a) → l.filterMap f = l.filterMap g := by
  intro l
  induction l with
  | nil => intro _; rfl
  | cons a l ih =>
    intro h
    rw [List.filterMap_cons, List.filterMap_cons, h a (List.mem_cons_self a l),
      ih (fun b hb => h b (List.mem_cons_of_mem a hb))]

theorem ups_sameShape : ∀ (fuel : Nat) (nodes : List FileNode) (pi : Nat),
    sameShape nodes (update_parent_state fuel nodes pi) := by
  intro fuel
  induction fuel with
  | zero => intro nodes pi; exact sameShape.rfl
  | succ fuel ih =>
    intro nodes pi
    simp only [update_parent_state]
    by_cases hemp : (childrenD nodes pi).isEmpty
    · rw [if_pos hemp]; exact sameShape.rfl
    · rw [if_neg hemp]
      cases hpar : parentIdx (setStateAt nodes pi (upsAggregate nodes pi)) pi with
      | none => exact setStateAt_sameShape nodes pi _
      | some gp => exact (setStateAt_sameShape nodes pi _).trans (ih _ gp)

/-- The main effect of `update_parent_state` on a well-formed arena with
enough fuel and a nonempty children list at the start node: entries outside
the ancestor chain are untouched, and every node of the chain ends with the
aggregate of its (final) immediate-children states. -/
theorem ups_main : ∀ (fuel : Nat) (nodes : List FileNode) (pi : Nat),
    WF nodes → pi + 1 ≤ fuel → childrenD nodes pi ≠ [] →
    (∀ j, ¬ AncEq nodes pi j → (update_parent_state fuel nodes pi)[j]? = nodes[j]?) ∧
    (∀ a, AncEq nodes pi a →
      stateOf (update_parent_state fuel nodes pi) a =
        some (aggregateStates (childStates (update_parent_state fuel nodes pi) a))) := by
  intro fuel
  induction fuel with
  | zero => intro nodes pi _ hfuel _; omega
  | succ fuel ih =>
    intro nodes pi hwf hfuel hch
    have hemp : ¬ (childrenD nodes pi).isEmpty = true := by
      simp [List.isEmpty_iff]; exact hch
    obtain ⟨npi, hnpi⟩ : ∃ n, nodes[pi]? = some n := by
      cases hn : nodes[pi]? with
      | none => exact absurd (by unfold childrenD; rw [hn]; rfl) hch
      | some n => exact ⟨n, rfl⟩
    have hpilen : pi < nodes.length := (List.getElem?_eq_some_iff.mp hnpi).1
    have hshape1 : sameShape nodes (setStateAt nodes pi (upsAggregate nodes pi)) :=
      setStateAt_sameShape nodes pi _
    have hwf1 : WF (setStateAt nodes pi (upsAggregate nodes pi)) :=
      (hshape1.wf_iff).mp hwf
    have hself1 : (setStateAt nodes pi (upsAggregate nodes pi))[pi]? =
        some { npi with state := upsAggregate nodes pi } :=
      setStateAt_getElem_self _ hnpi
    have hchildState1 : ∀ c, childOf nodes pi c →
        (setStateAt nodes pi (upsAggregate nodes pi))[c]? = nodes[c]? := by
      intro c hc
      exact setStateAt_getElem_ne _ (by have := (hwf.child_facts hc).1; omega)
    simp only [update_parent_state]
    rw [if_neg hemp]
    cases hpar : parentIdx (setStateAt nodes pi (upsAggregate nodes pi)) pi with
    | none =>
      have hnoanc : ∀ a, ¬ Anc nodes pi a := by
        intro a ha
        obtain ⟨b, hb, -⟩ := Relation.TransGen.head'_iff.mp ha
        unfold parentRel at hb
        rw [hshape1.parentIdx_eq pi] at hb
        rw [hb] at hpar
        exact Option.noConfusion hpar
      constructor
      · intro j hj
        have hjpi : j ≠ pi := fun he => hj (he ▸ Relation.ReflTransGen.refl)
        exact setStateAt_getElem_ne _ hjpi
      · intro a ha
        rcases Relation.reflTransGen_iff_eq_or_transGen.mp ha with heq | hanc
        · rw [heq]
          unfold stateOf
          rw [hself1]
          have hcs : childStates (setStateAt nodes pi (upsAggregate nodes pi)) pi =
              childStates nodes pi := by
            unfold childStates
            rw [← hshape1.childrenD_eq pi]
            exact filterMap_congr_aux _ _ _ (fun c hc => by
              rw [hchildState1 c hc])
          rw [hcs, ← upsAggregate_eq]
          rfl
        · exact absurd hanc (hnoanc a)
    | some gp =>
      have hrel : parentRel nodes pi gp := by
        unfold parentRel
        rw [hshape1.parentIdx_eq pi]
        exact hpar
      have hgp : gp < pi := (hwf.parent_facts hrel).1
      have hgpch : pi ∈ childrenD nodes gp := (hwf.parent_facts hrel).2
      have hgpch1 : childrenD (setStateAt nodes pi (upsAggregate nodes pi)) gp ≠ [] := by
        rw [← hshape1.childrenD_eq gp]
        intro he
        rw [he] at hgpch
        exact List.not_mem_nil pi hgpch
      obtain ⟨iha, ihb⟩ := ih (setStateAt nodes pi (upsAggregate nodes pi)) gp hwf1
        (by omega) hgpch1
      have hancgp_of : ∀ x, AncEq (setStateAt nodes pi (upsAggregate nodes pi)) gp x →
          AncEq nodes pi x := by
        intro x hx
        rw [show AncEq (setStateAt nodes pi (upsAggregate nodes pi)) = AncEq nodes from
          (hshape1.ancEq_eq).symm] at hx
        exact Relation.ReflTransGen.head hrel hx
      have hresShape : sameShape nodes
          (update_parent_state fuel (setStateAt nodes pi (upsAggregate nodes pi)) gp) :=
        hshape1.trans (ups_sameShape fuel _ gp)
      constructor
      · intro j hj
        have hjgp : ¬ AncEq (setStateAt nodes pi (upsAggregate nodes pi)) gp j :=
          fun hx => hj (hancgp_of j hx)
        rw [iha j hjgp]
        exact setStateAt_getElem_ne _ (fun he => hj (he ▸ Relation.ReflTransGen.refl))
      · intro a ha
        rcases Relation.reflTransGen_iff_eq_or_transGen.mp ha with heq | hanc
        · rw [heq]
          have hpina : ¬ AncEq (setStateAt nodes pi (upsAggregate nodes pi)) gp pi := by
            intro hx
            have := hwf1.ancEq_le hx
            omega
          unfold stateOf
          rw [iha pi hpina, hself1]
          have hcs : childStates
              (update_parent_state fuel (setStateAt nodes pi (upsAggregate nodes pi)) gp) pi
              = childStates nodes pi := by
            unfold childStates
            rw [← hresShape.childrenD_eq pi]
            refine filterMap_congr_aux _ _ _ (fun c hc => ?_)
            have hcpi : pi < c := (hwf.child_facts hc).1
            have hcgp : ¬ AncEq (setStateAt nodes pi (upsAggregate nodes pi)) gp c := by
              intro hx
              have := hwf1.ancEq_le hx
              omega
            rw [iha c hcgp, hchildState1 c hc]
          rw [hcs, ← upsAggregate_eq]
          rfl
        · obtain ⟨b, hb, hba⟩ := Relation.TransGen.head'_iff.mp hanc
          have hbgp : b = gp := parentRel_right_unique hb hrel
          have h1 : AncEq nodes gp a := by rw [← hbgp]; exact hba
          rw [hshape1.ancEq_eq] at h1
          exact ihb a h1

/-- Witness for C2 at `treeDemo`. -/
theorem c2_set_state_subtree_witness :
    (WF treeDemo.nodes ∧ 0 < treeDemo.nodes.length) ∧
    (SelectionState.Included ≠ SelectionState.Partial →
      stateOf (set_state treeDemo 0 SelectionState.Included).nodes 0 =
        some SelectionState.Included ∧
      ∀ j, Desc treeDemo.nodes 0 j →
        stateOf (set_state treeDemo 0 SelectionState.Included).nodes j =
          some SelectionState.Included) :=
  ⟨⟨by decide, by decide⟩,
    (c2_set_state_subtree treeDemo (by decide) 0 (by decide) SelectionState.Included).1⟩

/-- After `set_state`, every proper ancestor of the written index holds
exactly the aggregate of its final immediate-children states. -/
theorem set_state_anc_agg (t : DirectoryTree) (hwf : WF t.nodes) (index : Nat)
    (hi : index < t.nodes.length) (s : SelectionState) :
    ∀ a, Anc t.nodes index a →
      stateOf (set_state t index s).nodes a =
        some (aggregateStates (childStates (set_state t index s).nodes a)) := by
  obtain ⟨node, hnode⟩ : ∃ n, t.nodes[index]? = some n :=
    ⟨_, List.getElem?_eq_getElem hi⟩
  cases hpar : node.parent with
  | none =>
    intro a ha
    obtain ⟨b, hb, -⟩ := Relation.TransGen.head'_iff.mp ha
    unfold parentRel parentIdx at hb
    rw [hnode] at hb
    have hb' : node.parent = some b := hb
    rw [hpar] at hb'
    exact Option.noConfusion hb'
  | some p =>
    have hrel : parentRel t.nodes index p := by
      unfold parentRel parentIdx
      rw [hnode]
      exact hpar
    have hp : p < index := (hwf.parent_facts hrel).1
    have hshape0 : sameShape t.nodes (t.nodes.set index { node with state := s }) :=
      sameShape_set_state hnode s
    have hshape1 : sameShape t.nodes
        (propagate_to_children (t.nodes.set index { node with state := s }).length
          (t.nodes.set index { node with state := s }) index s) :=
      hshape0.trans (ptc_sameShape _ _ index s)
    have hwf1 := (hshape1.wf_iff).mp hwf
    have hlen1 : (propagate_to_children (t.nodes.set index { node with state := s }).length
        (t.nodes.set index { node with state := s }) index s).length = t.nodes.length :=
      (hshape1.length_eq).symm
    have hne : childrenD
        (propagate_to_children (t.nodes.set index { node with state := s }).length
          (t.nodes.set index { node with state := s }) index s) p ≠ [] := by
      rw [← hshape1.childrenD_eq p]
      intro he
      have := (hwf.parent_facts hrel).2
      unfold childOf at this
      rw [he] at this
      exact List.not_mem_nil index this
    obtain ⟨-, ihb⟩ := ups_main
      (propagate_to_children (t.nodes.set index { node with state := s }).length
        (t.nodes.set index { node with state := s }) index s).length
      (propagate_to_children (t.nodes.set index { node with state := s }).length
        (t.nodes.set index { node with state := s }) index s) p hwf1
      (by omega) hne
    have hres : (set_state t index s).nodes =
        update_parent_state
          (propagate_to_children (t.nodes.set index { node with state := s }).length
            (t.nodes.set index { node with state := s }) index s).length
          (propagate_to_children (t.nodes.set index { node with state := s }).length
            (t.nodes.set index { node with state := s }) index s) p := by
      simp only [set_state, hnode, hpar]
    intro a ha
    obtain ⟨b, hb, hba⟩ := Relation.TransGen.head'_iff.mp ha
    have hbp : b = p := parentRel_right_unique hb hrel
    have h1 : AncEq t.nodes p a := by rw [← hbp]; exact hba
    rw [hshape1.ancEq_eq] at h1
    rw [hres]
    exact ihb a h1

/-- C3: for a valid index on a well-formed arena, `set_state` leaves every
proper ancestor of the index with exactly the aggregate of its (final)
immediate-children states, for every new state `s` including `Partial`; and
the aggregate is the claimed policy: `Partial` when a child is `Partial` or
the children mix `Included` and `Excluded`, else `Included` when at least one
child is `Included`, else `Excluded`. -/
theorem c3_set_state_ancestors (t : DirectoryTree) (hwf : WF t.nodes) (index : Nat)
    (hi : index < t.nodes.length) (s : SelectionState) :
    (∀ a, Anc t.nodes index a →
      stateOf (set_state t index s).nodes a =
        some (aggregateStates (childStates (set_state t index s).nodes a))) ∧
    (∀ states : List SelectionState,
      aggregateStates states =
        if SelectionState.Partial ∈ states ∨
            (SelectionState.Included ∈ states ∧ SelectionState.Excluded ∈ states) then
          SelectionState.Partial
        else if SelectionState.Included ∈ states then SelectionState.Included
        else SelectionState.Excluded) :=
  ⟨set_state_anc_agg t hwf index hi s, aggregateStates_policy⟩

/-- Witness for C3 at `treeDemo`: the ancestor chain of the file `a.rs`. -/
theorem c3_set_state_ancestors_witness :
    (WF treeDemo.nodes ∧ 2 < treeDemo.nodes.length ∧
      parentIdx treeDemo.nodes 2 = some 1) ∧
    stateOf (set_state treeDemo 2 SelectionState.Excluded).nodes 1 =
      some (aggregateStates (childStates (set_state treeDemo 2 SelectionState.Excluded).nodes 1)) :=
  ⟨⟨by decide, by decide, by decide⟩,
    (c3_set_state_ancestors treeDemo (by decide) 2 (by decide) SelectionState.Excluded).1 1
      (Relation.TransGen.single (by decide : parentIdx treeDemo.nodes 2 = some 1))⟩

/-! ## C8: `filter_tree_nodes` -/

theorem range_map_getD {α β : Type} (s : List α) (f : α → β) (d : β) :
    (List.range s.length).map (fun i => ((s[i]?).map f).getD d) = s.map f := by
  apply List.ext_getElem
  · simp
  · intro i h1 h2
    simp only [List.getElem_map, List.getElem_range]
    rw [List.getElem?_eq_getElem (by simpa using h2)]
    rfl

/-- C8: with an empty query, `filter_tree_nodes` returns exactly the
searchable nodes (directories plus text files) in original arena order, each
with score 0 and empty highlight positions; with a non-empty query, the
result is a permutation of the matched candidates (non-matching candidates
dropped), ordered by descending score, and — stability — for every score the
results carrying it appear exactly in their original arena order; the visible
items are the matches mapped back to arena indices. -/
theorem c8_filter_tree_nodes (fuzzy : List Char → List Char → Option (Int × List Nat))
    (t : DirectoryTree) :
    ((filter_tree_nodes fuzzy t []).matches' =
        (List.range (searchableNodes t).length).map
          (fun i => { score := 0, indices := [], item_index := i }) ∧
      (filter_tree_nodes fuzzy t []).visible_items =
        (searchableNodes t).map Prod.fst) ∧
    (∀ q : List Char, q ≠ [] →
      ((filter_tree_nodes fuzzy t q).matches').Perm (fuzzyCandidates fuzzy t q) ∧
      ((filter_tree_nodes fuzzy t q).matches').Pairwise
        (fun a b => b.score ≤ a.score) ∧
      (∀ sc : Int, ((filter_tree_nodes fuzzy t q).matches').filter
          (fun m => m.score == sc) =
        (fuzzyCandidates fuzzy t q).filter (fun m => m.score == sc)) ∧
      (filter_tree_nodes fuzzy t q).visible_items =
        ((filter_tree_nodes fuzzy t q).matches').map
          (fun m => (((searchableNodes t)[m.item_index]?).map Prod.fst).getD 0)) := by
  have hlen : ((searchableNodes t).map (fun p => fuzzyDisplayText t p.2)).length =
      (searchableNodes t).length := List.length_map _ _
  constructor
  · constructor
    · simp [filter_tree_nodes, search_items, hlen]
    · simp only [filter_tree_nodes, search_items, List.isEmpty_nil, if_true, hlen]
      rw [List.map_map]
      have := range_map_getD (searchableNodes t) Prod.fst 0
      simpa using this
  · intro q hq
    have hqe : ¬ q.isEmpty = true := by
      cases q with
      | nil => exact absurd rfl hq
      | cons a l => simp
    have hform : (filter_tree_nodes fuzzy t q).matches' =
        List.mergeSort (fuzzyCandidates fuzzy t q)
          (fun a b => decide (b.score ≤ a.score)) := by
      simp only [filter_tree_nodes, search_items, if_neg hqe, fuzzyCandidates]
    have htrans : ∀ (a b c : MatchResult),
        decide (b.score ≤ a.score) = true → decide (c.score ≤ b.score) = true →
        decide (c.score ≤ a.score) = true := by
      intro a b c h1 h2
      simp only [decide_eq_true_iff] at h1 h2 ⊢
      omega
    have htotal : ∀ (a b : MatchResult),
        (decide (b.score ≤ a.score) || decide (a.score ≤ b.score)) = true := by
      intro a b
      simp only [Bool.or_eq_true, decide_eq_true_iff]
      omega
    refine ⟨?_, ?_, ?_, ?_⟩
    · rw [hform]
      exact List.mergeSort_perm _ _
    · rw [hform]
      have hsorted := List.sorted_mergeSort htrans htotal (fuzzyCandidates fuzzy t q)
      exact hsorted.imp (fun h => by simpa using h)
    · intro sc
      rw [hform]
      have hfsub : List.Sublist
          ((fuzzyCandidates fuzzy t q).filter (fun m => m.score == sc))
          (List.mergeSort (fuzzyCandidates fuzzy t q)
            (fun a b => decide (b.score ≤ a.score))) := by
        apply List.sublist_mergeSort htrans htotal
        · apply List.pairwise_of_forall_mem_list
          intro a ha b hb
          have ha2 := (List.mem_filter.mp ha).2
          have hb2 := (List.mem_filter.mp hb).2
          simp only [beq_iff_eq] at ha2 hb2
          simp [ha2, hb2]
        · exact List.filter_sublist _
      have hperm : List.Perm
          ((List.mergeSort (fuzzyCandidates fuzzy t q)
            (fun a b => decide (b.score ≤ a.score))).filter (fun m => m.score == sc))
          ((fuzzyCandidates fuzzy t q).filter (fun m => m.score == sc)) :=
        (List.mergeSort_perm _ _).filter _
      have hsub2 : List.Sublist
          ((fuzzyCandidates fuzzy t q).filter (fun m => m.score == sc))
          ((List.mergeSort (fuzzyCandidates fuzzy t q)
            (fun a b => decide (b.score ≤ a.score))).filter (fun m => m.score == sc)) := by
        have := hfsub.filter (fun m => m.score == sc)
        rwa [List.filter_filter, show (fun m : MatchResult =>
          (m.score == sc) && (m.score == sc)) = (fun m => m.score == sc) from
          funext (fun m => Bool.and_self _)] at this
      exact (hsub2.eq_of_length hperm.length_eq.symm).symm
    · rfl

/-! ## C6: bulk pattern selection -/

theorem ups_untouched : ∀ (fuel : Nat) (nodes : List FileNode) (pi : Nat),
    WF nodes → ∀ j, ¬ AncEq nodes pi j →
    (update_parent_state fuel nodes pi)[j]? = nodes[j]? := by
  intro fuel
  induction fuel with
  | zero => intro nodes pi _ j _; rfl
  | succ fuel ih =>
    intro nodes pi hwf j hj
    have hjpi : j ≠ pi := fun he => hj (he ▸ Relation.ReflTransGen.refl)
    simp only [update_parent_state]
    by_cases hemp : (childrenD nodes pi).isEmpty
    · rw [if_pos hemp]
    · rw [if_neg hemp]
      have hshape1 : sameShape nodes (setStateAt nodes pi (upsAggregate nodes pi)) :=
        setStateAt_sameShape nodes pi _
      cases hpar : parentIdx (setStateAt nodes pi (upsAggregate nodes pi)) pi with
      | none => exact setStateAt_getElem_ne _ hjpi
      | some gp =>
        have hrel : parentRel nodes pi gp := by
          unfold parentRel
          rw [hshape1.parentIdx_eq pi]
          exact hpar
        have hj1 : ¬ AncEq (setStateAt nodes pi (upsAggregate nodes pi)) gp j := by
          intro hx
          rw [← hshape1.ancEq_eq] at hx
          exact hj (Relation.ReflTransGen.head hrel hx)
        rw [ih _ gp ((hshape1.wf_iff).mp hwf) j hj1]
        exact setStateAt_getElem_ne _ hjpi

/-- Entries that are neither the written index, nor below it, nor on its
ancestor chain are untouched by `set_state`. -/
theorem set_state_untouched (t : DirectoryTree) (hwf : WF t.nodes) (index : Nat)
    (s : SelectionState) (j : Nat) (hdesc : ¬ DescEq t.nodes index j)
    (hanc : ¬ Anc t.nodes index j) :
    (set_state t index s).nodes[j]? = t.nodes[j]? := by
  cases hnode : t.nodes[index]? with
  | none => simp only [set_state, hnode]
  | some node =>
    have hji : j ≠ index := fun he => hdesc (he ▸ Relation.ReflTransGen.refl)
    have hshape0 : sameShape t.nodes (t.nodes.set index { node with state := s }) :=
      sameShape_set_state hnode s
    have hwf0 := (hshape0.wf_iff).mp hwf
    have h0 : (t.nodes.set index { node with state := s })[j]? = t.nodes[j]? :=
      List.getElem?_set_ne (fun he => hji he.symm)
    have h1 : (propagate_to_children (t.nodes.set index { node with state := s }).length
        (t.nodes.set index { node with state := s }) index s)[j]? = t.nodes[j]? := by
      rw [ptc_outside _ _ index s j (by rw [← hshape0.descEq_eq]; exact hdesc), h0]
    have hshape1 : sameShape t.nodes
        (propagate_to_children (t.nodes.set index { node with state := s }).length
          (t.nodes.set index { node with state := s }) index s) :=
      hshape0.trans (ptc_sameShape _ _ index s)
    have hwf1 := (hshape1.wf_iff).mp hwf
    simp only [set_state, hnode]
    generalize propagate_to_children (t.nodes.set index { node with state := s }).length
      (t.nodes.set index { node with state := s }) index s = L at h1 hshape1 hwf1 ⊢
    cases hpar : node.parent with
    | none => exact h1
    | some p =>
      have hrel : parentRel t.nodes index p := by
        unfold parentRel parentIdx
        rw [hnode]
        exact hpar
      have hancj : ¬ AncEq L p j := by
        intro hx
        rw [← hshape1.ancEq_eq] at hx
        exact hanc (Relation.TransGen.head' hrel hx)
      rw [ups_untouched L.length L p hwf1 j hancj]
      exact h1

/-- A file (leaf) node is never on an ancestor chain. -/
theorem file_not_anc {nodes : List FileNode} (hwf : WF nodes) {i j : Nat}
    (hfile : isDirD nodes j = false) : ¬ Anc nodes i j := by
  intro ha
  obtain ⟨b, -, hb⟩ := Relation.TransGen.tail'_iff.mp ha
  have hcb : childOf nodes j b := (hwf.parent_facts hb).2
  have hjlen : j < nodes.length := childOf_lt_length hcb
  have := (hwf j hjlen).2.2 hfile
  unfold childOf at hcb
  rw [this] at hcb
  exact List.not_mem_nil b hcb

/-- A valid index gets exactly the written state: the initial write survives
both the downward propagation and the upward aggregation, because ancestors
have strictly smaller indices. -/
theorem set_state_state_self (t : DirectoryTree) (hwf : WF t.nodes) (index : Nat)
    (hi : index < t.nodes.length) (s : SelectionState) :
    stateOf (set_state t index s).nodes index = some s := by
  obtain ⟨node, hnode⟩ : ∃ n, t.nodes[index]? = some n :=
    ⟨_, List.getElem?_eq_getElem hi⟩
  have h0idx : (t.nodes.set index { node with state := s })[index]? =
      some { node with state := s } := List.getElem?_set_self hi
  have hshape0 : sameShape t.nodes (t.nodes.set index { node with state := s }) :=
    sameShape_set_state hnode s
  have hshape1 : sameShape t.nodes
      (propagate_to_children (t.nodes.set index { node with state := s }).length
        (t.nodes.set index { node with state := s }) index s) :=
    hshape0.trans (ptc_sameShape _ _ index s)
  have hwf1 := (hshape1.wf_iff).mp hwf
  have hidx1 : stateOf (propagate_to_children
      (t.nodes.set index { node with state := s }).length
      (t.nodes.set index { node with state := s }) index s) index = some s := by
    rcases ptc_states (t.nodes.set index { node with state := s }).length
      (t.nodes.set index { node with state := s }) index s index with h | h
    · unfold stateOf; rw [h, h0idx]; rfl
    · unfold stateOf; rw [h, h0idx]; rfl
  simp only [set_state, hnode]
  generalize propagate_to_children (t.nodes.set index { node with state := s }).length
    (t.nodes.set index { node with state := s }) index s = L at hidx1 hshape1 hwf1 ⊢
  cases hpar : node.parent with
  | none => exact hidx1
  | some p =>
    have hrel : parentRel t.nodes index p := by
      unfold parentRel parentIdx
      rw [hnode]
      exact hpar
    have hp : p < index := (hwf.parent_facts hrel).1
    have hrw := ups_untouched L.length L p hwf1 index (by
      intro hx
      rw [← hshape1.ancEq_eq] at hx
      have := hwf.ancEq_le hx
      omega)
    unfold stateOf at hidx1 ⊢
    rw [hrw]
    exact hidx1

theorem set_state_sameShape (t : DirectoryTree) (index : Nat) (s : SelectionState) :
    sameShape t.nodes (set_state t index s).nodes := by
  cases hnode : t.nodes[index]? with
  | none => simp only [set_state, hnode]; exact sameShape.rfl
  | some node =>
    have hshape1 : sameShape t.nodes
        (propagate_to_children (t.nodes.set index { node with state := s }).length
          (t.nodes.set index { node with state := s }) index s) :=
      (sameShape_set_state hnode s).trans (ptc_sameShape _ _ index s)
    simp only [set_state, hnode]
    generalize propagate_to_children (t.nodes.set index { node with state := s }).length
      (t.nodes.set index { node with state := s }) index s = L at hshape1 ⊢
    cases node.parent with
    | none => exact hshape1
    | some p => exact hshape1.trans (ups_sameShape _ _ p)

theorem set_state_root (t : DirectoryTree) (index : Nat) (s : SelectionState) :
    (set_state t index s).root_index = t.root_index := by
  cases hnode : t.nodes[index]? with
  | none => simp only [set_state, hnode]
  | some node =>
    cases hpar : node.parent with
    | none => simp only [set_state, hnode, hpar]
    | some p => simp only [set_state, hnode, hpar]

theorem applyPatternsStep_sameShape (inc exc : List (List Char)) (t : DirectoryTree)
    (i : Nat) : sameShape t.nodes (applyPatternsStep inc exc t i).nodes := by
  unfold applyPatternsStep
  cases t.nodes[i]? with
  | none => exact sameShape.rfl
  | some node => exact set_state_sameShape t i _

theorem applyPatternsStep_root (inc exc : List (List Char)) (t : DirectoryTree)
    (i : Nat) : (applyPatternsStep inc exc t i).root_index = t.root_index := by
  unfold applyPatternsStep
  cases t.nodes[i]? with
  | none => rfl
  | some node => exact set_state_root t i _

/-- The display path read by the pattern matcher only depends on the shape. -/
theorem relativeDisplayPath_congr {t t' : DirectoryTree}
    (hsh : sameShape t.nodes t'.nodes) (hroot : t'.root_index = t.root_index)
    {n n' : FileNode} (hn : n.shape = n'.shape) :
    relativeDisplayPath t' n' = relativeDisplayPath t n := by
  have hp := congrArg FileNode.path hn
  have hpath : n.path = n'.path := hp
  unfold relativeDisplayPath
  rw [hroot]
  have hh := hsh.getElem?_shape t.root_index
  cases ha : t.nodes[t.root_index]? with
  | none =>
    cases hb : t'.nodes[t.root_index]? with
    | none => rw [hpath]
    | some rn' => rw [ha, hb] at hh; simp at hh
  | some rn =>
    cases hb : t'.nodes[t.root_index]? with
    | none => rw [ha, hb] at hh; simp at hh
    | some rn' =>
      rw [ha, hb] at hh
      simp at hh
      have hr := congrArg FileNode.path hh
      have hrp : rn.path = rn'.path := hr
      simp only [hpath, hrp]

/-- The include/exclude decision only depends on the shape. -/
theorem patternDecision_congr (inc exc : List (List Char)) {t t' : DirectoryTree}
    (hsh : sameShape t.nodes t'.nodes) (hroot : t'.root_index = t.root_index)
    {n n' : FileNode} (hn : n.shape = n'.shape) :
    patternDecision inc exc t' n' = patternDecision inc exc t n := by
  have hm := congrArg FileNode.name hn
  have hname : n.name = n'.name := hm
  unfold patternDecision
  rw [relativeDisplayPath_congr hsh hroot hn, hname]

/-- A pattern iteration with index above `j` never touches a file entry `j`. -/
theorem applyPatternsStep_untouched (inc exc : List (List Char)) (t : DirectoryTree)
    (hwf : WF t.nodes) {k j : Nat} (hfile : isDirD t.nodes j = false) (hjk : j < k) :
    (applyPatternsStep inc exc t k).nodes[j]? = t.nodes[j]? := by
  unfold applyPatternsStep
  cases t.nodes[k]? with
  | none => rfl
  | some node =>
    refine set_state_untouched t hwf k _ j ?_ ?_
    · intro hd
      rcases Relation.reflTransGen_iff_eq_or_transGen.mp hd with he | ht
      · omega
      · have := (hwf.desc_lt ht).1
        omega
    · exact file_not_anc hwf hfile

theorem applySteps_shape_root (inc exc : List (List Char)) :
    ∀ (ks : List Nat) (t : DirectoryTree),
    sameShape t.nodes ((ks.foldl (applyPatternsStep inc exc) t).nodes) ∧
    (ks.foldl (applyPatternsStep inc exc) t).root_index = t.root_index := by
  intro ks
  induction ks with
  | nil => intro t; exact ⟨sameShape.rfl, rfl⟩
  | cons k ks ih =>
    intro t
    rw [List.foldl_cons]
    obtain ⟨h1, h2⟩ := ih (applyPatternsStep inc exc t k)
    exact ⟨(applyPatternsStep_sameShape inc exc t k).trans h1,
      h2.trans (applyPatternsStep_root inc exc t k)⟩

theorem applySteps_untouched (inc exc : List (List Char)) :
    ∀ (ks : List Nat) (t : DirectoryTree), WF t.nodes →
    ∀ j, isDirD t.nodes j = false → (∀ k ∈ ks, j < k) →
    (ks.foldl (applyPatternsStep inc exc) t).nodes[j]? = t.nodes[j]? := by
  intro ks
  induction ks with
  | nil => intro t _ j _ _; rfl
  | cons k ks ih =>
    intro t hwf j hfile hks
    rw [List.foldl_cons]
    have hstep := applyPatternsStep_untouched inc exc t hwf hfile
      (hks k (List.mem_cons_self k ks))
    have hsh := applyPatternsStep_sameShape inc exc t k
    have hrec := ih (applyPatternsStep inc exc t k) (hsh.wf_iff.mp hwf) j
      (by rw [← hsh.isDirD_eq]; exact hfile)
      (fun a ha => hks a (List.mem_cons_of_mem k ha))
    rw [hrec, hstep]

/-- Once a file entry has been written, iterations with larger indices leave
its state alone. -/
theorem applySteps_after_write (inc exc : List (List Char)) (t1 : DirectoryTree)
    (hwf1 : WF t1.nodes) (j : Nat) (hj1 : j < t1.nodes.length)
    (hdir1 : isDirD t1.nodes j = false) (snew : SelectionState)
    (ks : List Nat) (hks : ∀ k ∈ ks, j < k) :
    stateOf (ks.foldl (applyPatternsStep inc exc) (set_state t1 j snew)).nodes j
      = some snew := by
  have hsh2 : sameShape t1.nodes (set_state t1 j snew).nodes := set_state_sameShape t1 j snew
  have hwf2 : WF (set_state t1 j snew).nodes := hsh2.wf_iff.mp hwf1
  have hdir2 : isDirD (set_state t1 j snew).nodes j = false := by
    rw [← hsh2.isDirD_eq]
    exact hdir1
  unfold stateOf
  rw [applySteps_untouched inc exc ks (set_state t1 j snew) hwf2 j hdir2 hks]
  have h := set_state_state_self t1 hwf1 j hj1 snew
  unfold stateOf at h
  exact h

/-- C6 counterexample: with no include patterns and the single exclude
pattern `*.bin`, the directory `stuff` (index 1) matches neither on its
relative path nor on its name, yet ends up `Excluded`, not `Included`: the
later iteration for `a.bin` re-aggregates its ancestors. -/
theorem c6_counterexample :
    ((treeC6.nodes[1]?).map (fun n =>
        path_matches_pattern (relativeDisplayPath treeC6 n) "*.bin".toList ||
        path_matches_pattern n.name.toList "*.bin".toList) = some false) ∧
    ((treeC6.nodes[1]?).map (fun n => n.is_directory) = some true) ∧
    stateOf (apply_patterns treeC6 [] ["*.bin".toList]).nodes 1 =
      some SelectionState.Excluded := by
  decide

/-- C6 (amended): restricted to file (non-directory) entries, bulk pattern
selection acts pointwise: on a well-formed arena, every file ends in the
state its own include/exclude decision dictates — `Included` iff (the
include list is empty or some include pattern hits its relative path or
name) and no exclude pattern hits, `Excluded` otherwise; with an empty
include list the decision degenerates to "no exclude pattern hits", so
every non-matching *file* is `Included` and every matching file `Excluded`.
Directory entries are instead re-aggregated from their children
(`c6_counterexample` shows a non-matching directory ending `Excluded`). -/
theorem c6_apply_patterns_amended (t : DirectoryTree) (hwf : WF t.nodes)
    (inc exc : List (List Char)) (j : Nat) (node : FileNode)
    (hnode : t.nodes[j]? = some node) (hfile : node.is_directory = false) :
    stateOf (apply_patterns t inc exc).nodes j =
      some (if patternDecision inc exc t node then SelectionState.Included
        else SelectionState.Excluded) ∧
    patternDecision [] exc t node =
      !(exc.any (fun p => path_matches_pattern (relativeDisplayPath t node) p ||
        path_matches_pattern node.name.toList p)) := by
  constructor
  case right =>
    unfold patternDecision
    simp
  case left =>
    have hj : j < t.nodes.length := by
      by_contra h
      rw [List.getElem?_eq_none (by omega)] at hnode
      exact Option.noConfusion hnode
    have hdir : isDirD t.nodes j = false := by
      unfold isDirD
      rw [hnode]
      simpa using hfile
    unfold apply_patterns
    have hsplit : List.range t.nodes.length =
        List.range' 0 j ++ j :: List.range' (j + 1) (t.nodes.length - j - 1) := by
      rw [List.range_eq_range']
      have h1 := List.range'_append_1 0 j (t.nodes.length - j)
      rw [Nat.zero_add] at h1
      have h2 : t.nodes.length - j + j = t.nodes.length := by omega
      rw [h2] at h1
      have e1 : t.nodes.length - j = (t.nodes.length - j - 1) + 1 := by omega
      rw [← h1, e1, List.range'_succ, Nat.add_sub_cancel]
    rw [hsplit, List.foldl_append, List.foldl_cons]
    have hsh1 := (applySteps_shape_root inc exc (List.range' 0 j) t).1
    have hroot1 := (applySteps_shape_root inc exc (List.range' 0 j) t).2
    generalize (List.range' 0 j).foldl (applyPatternsStep inc exc) t = t1 at hsh1 hroot1 ⊢
    have hwf1 : WF t1.nodes := hsh1.wf_iff.mp hwf
    have hj1 : j < t1.nodes.length := by
      rw [← hsh1.length_eq]
      exact hj
    have hdir1 : isDirD t1.nodes j = false := by
      rw [← hsh1.isDirD_eq]
      exact hdir
    obtain ⟨n1, hn1⟩ : ∃ n1, t1.nodes[j]? = some n1 := ⟨_, List.getElem?_eq_getElem hj1⟩
    have hshn1 : node.shape = n1.shape := by
      have hh := hsh1.getElem?_shape j
      rw [hnode, hn1] at hh
      simpa using hh
    have hstepeq : applyPatternsStep inc exc t1 j = set_state t1 j
        (if patternDecision inc exc t1 n1 then SelectionState.Included
         else SelectionState.Excluded) := by
      unfold applyPatternsStep
      rw [hn1]
    rw [hstepeq, patternDecision_congr inc exc hsh1 hroot1 hshn1]
    refine applySteps_after_write inc exc t1 hwf1 j hj1 hdir1 _ _ ?_
    intro k hk
    obtain ⟨i, hi, hki⟩ := List.mem_range'.mp hk
    omega

/-- Witness for C6 at `treeC6`, file `a.bin` (index 2), exclude `*.bin`. -/
theorem c6_apply_patterns_witness :
    (WF treeC6.nodes ∧
     treeC6.nodes[2]? = some (treeC6.nodes.getD 2 (FileNode.new [] true none)) ∧
     (treeC6.nodes.getD 2 (FileNode.new [] true none)).is_directory = false) ∧
    stateOf (apply_patterns treeC6 [] ["*.bin".toList]).nodes 2 =
      some SelectionState.Excluded :=
  ⟨⟨by decide, by decide, by decide⟩, by
    have h := c6_apply_patterns_amended treeC6 (by decide) [] ["*.bin".toList] 2
      (treeC6.nodes.getD 2 (FileNode.new [] true none)) (by decide) (by decide)
    rw [h.1]
    decide⟩

/-! ## C4: file nodes and the `Partial` state -/

/-- The upward aggregation pass never rewrites a file entry: it writes only
at indices with a nonempty child list, which well-formedness reserves for
directories. -/
theorem ups_file_state : ∀ (fuel : Nat) (nodes : List FileNode) (pi : Nat),
    WF nodes → ∀ j, isDirD nodes j = false →
    (update_parent_state fuel nodes pi)[j]? = nodes[j]? := by
  intro fuel nodes pi hwf j hfile
  by_cases hji : j = pi
  · subst hji
    cases fuel with
    | zero => rfl
    | succ fuel =>
      have hemp : (childrenD nodes j).isEmpty = true := by
        by_cases hlen : j < nodes.length
        · rw [(hwf j hlen).2.2 hfile]
          rfl
        · unfold childrenD
          rw [List.getElem?_eq_none (by omega)]
          rfl
      simp only [update_parent_state, if_pos hemp]
  · apply ups_untouched fuel nodes pi hwf j
    intro hx
    rcases Relation.reflTransGen_iff_eq_or_transGen.mp hx with he | ha
    · exact hji he
    · exact file_not_anc hwf hfile ha

/-- On a well-formed arena, `set_state` leaves a file entry's state alone or
overwrites it with the requested state — the aggregation pass never touches
files. -/
theorem set_state_file_state (t : DirectoryTree) (hwf : WF t.nodes) (index : Nat)
    (s : SelectionState) (j : Nat) (hdirj : isDirD t.nodes j = false) :
    stateOf (set_state t index s).nodes j = stateOf t.nodes j ∨
    stateOf (set_state t index s).nodes j = some s := by
  cases hnode : t.nodes[index]? with
  | none =>
    left
    simp only [set_state, hnode]
  | some node =>
    have hidx : index < t.nodes.length := (List.getElem?_eq_some_iff.mp hnode).1
    simp only [set_state, hnode]
    have hsh0 : sameShape t.nodes (t.nodes.set index { node with state := s }) :=
      sameShape_set_state hnode s
    have hsh1 : sameShape t.nodes
        (propagate_to_children (t.nodes.set index { node with state := s }).length
          (t.nodes.set index { node with state := s }) index s) :=
      hsh0.trans (ptc_sameShape _ _ index s)
    have hwf1 := hsh1.wf_iff.mp hwf
    have hdir1 : isDirD (propagate_to_children
        (t.nodes.set index { node with state := s }).length
        (t.nodes.set index { node with state := s }) index s) j = false := by
      rw [← hsh1.isDirD_eq]
      exact hdirj
    have hstates : stateOf (propagate_to_children
          (t.nodes.set index { node with state := s }).length
          (t.nodes.set index { node with state := s }) index s) j = stateOf t.nodes j ∨
        stateOf (propagate_to_children
          (t.nodes.set index { node with state := s }).length
          (t.nodes.set index { node with state := s }) index s) j = some s := by
      by_cases hji : j = index
      · subst hji
        right
        rcases ptc_states (t.nodes.set j { node with state := s }).length
          (t.nodes.set j { node with state := s }) j s j with h | h
        · unfold stateOf
          rw [h, List.getElem?_set_self hidx]
          rfl
        · unfold stateOf
          rw [h, List.getElem?_set_self hidx]
          rfl
      · rcases ptc_states (t.nodes.set index { node with state := s }).length
          (t.nodes.set index { node with state := s }) index s j with h | h
        · left
          unfold stateOf
          rw [h, List.getElem?_set_ne (fun he => hji he.symm)]
        · unfold stateOf
          rw [h, List.getElem?_set_ne (fun he => hji he.symm)]
          cases hj : t.nodes[j]? with
          | none => left; rfl
          | some nj => right; rfl
    generalize propagate_to_children (t.nodes.set index { node with state := s }).length
      (t.nodes.set index { node with state := s }) index s = L at hstates hwf1 hdir1 ⊢
    cases node.parent with
    | none => exact hstates
    | some p =>
      unfold stateOf at hstates ⊢
      rw [ups_file_state L.length L p hwf1 j hdir1]
      exact hstates

/-- Any entry of an `add_node` result is the fresh node (state `Excluded`) or
carries the state and kind of the corresponding old entry (the parent's
child-list update keeps both). -/
theorem add_node_entry (fs : FS) (t : DirectoryTree) (path : List String)
    (is_dir : Bool) (pp : List String) (j : Nat) (n' : FileNode)
    (h : (add_node fs t path is_dir pp).1.nodes[j]? = some n') :
    n'.state = SelectionState.Excluded ∨
    ∃ n, t.nodes[j]? = some n ∧ n'.state = n.state ∧ n'.is_directory = n.is_directory := by
  rcases hl1 : t.path_to_index.lookup path with _ | existing
  case some =>
    right
    simp only [add_node, hl1] at h
    exact ⟨n', h, rfl, rfl⟩
  rcases hl2 : t.path_to_index.lookup pp with _ | parent_index
  case none =>
    right
    simp only [add_node, hl1, hl2] at h
    exact ⟨n', h, rfl, rfl⟩
  simp only [add_node, hl1, hl2] at h
  have happ : ∀ m : FileNode,
      (t.nodes ++ [if is_dir then FileNode.new path is_dir (some parent_index)
        else { FileNode.new path is_dir (some parent_index) with
          is_text_file := is_text_file fs path }])[j]? = some m →
      m.state = SelectionState.Excluded ∨
      ∃ n, t.nodes[j]? = some n ∧ m.state = n.state ∧ m.is_directory = n.is_directory := by
    intro m hm
    by_cases hjlen : j < t.nodes.length
    · right
      rw [List.getElem?_append_left hjlen] at hm
      exact ⟨m, hm, rfl, rfl⟩
    · left
      rw [List.getElem?_append_right (by omega)] at hm
      rcases hd : j - t.nodes.length with _ | d
      · rw [hd] at hm
        simp only [List.getElem?_cons_zero, Option.some.injEq] at hm
        subst hm
        cases is_dir <;> rfl
      · rw [hd] at hm
        simp at hm
  cases hp : (t.nodes ++ [if is_dir then FileNode.new path is_dir (some parent_index)
      else { FileNode.new path is_dir (some parent_index) with
        is_text_file := is_text_file fs path }])[parent_index]? with
  | none =>
    rw [hp] at h
    exact happ n' h
  | some parent =>
    rw [hp] at h
    by_cases hjp : j = parent_index
    · subst hjp
      have hplen : j < (t.nodes ++ [if is_dir then FileNode.new path is_dir (some j)
          else { FileNode.new path is_dir (some j) with
            is_text_file := is_text_file fs path }]).length :=
        (List.getElem?_eq_some_iff.mp hp).1
      rw [List.getElem?_set_self hplen] at h
      have hn' : n' = { parent with children := parent.children ++ [t.nodes.length] } :=
        (Option.some.inj h).symm
      rcases happ parent hp with h1 | ⟨n, hn, h2, h3⟩
      · left
        rw [hn', h1]
      · right
        exact ⟨n, hn, by rw [hn']; exact h2, by rw [hn']; exact h3⟩
    · rw [List.getElem?_set_ne (fun he => hjp he.symm)] at h
      exact happ n' h

/-- Writing a non-`Partial` state through `set_state` keeps every file entry
non-`Partial`. -/
theorem set_state_filesNonPartial (t : DirectoryTree) (hwf : WF t.nodes)
    (hinv : filesNonPartial t.nodes) (index : Nat) {s : SelectionState}
    (hs : s ≠ SelectionState.Partial) :
    filesNonPartial (set_state t index s).nodes := by
  intro j hj hdir
  have hsh := set_state_sameShape t index s
  have hdirj : isDirD t.nodes j = false := by
    rw [hsh.isDirD_eq]
    exact hdir
  have hjt : j < t.nodes.length := by
    rw [hsh.length_eq]
    exact hj
  rcases set_state_file_state t hwf index s j hdirj with h | h
  · rw [h]
    exact hinv j hjt hdirj
  · rw [h]
    intro hc
    exact hs (Option.some.inj hc)

/-- C4 (amended): on a well-formed arena where no file holds `Partial`, the
public mutations preserve that property as long as `set_state` is not handed
`Partial` itself: `set_state` with a non-`Partial` state, `toggle_state`
(whose written state is never `Partial`), and `add_node` (whose fresh node
starts `Excluded`) all keep every file entry in `{Included, Excluded}`.  The
original claim's "any SelectionState value" fails: `c4_counterexample` shows
`set_state(file, Partial)` storing `Partial` on the file. -/
theorem c4_file_states_amended (t : DirectoryTree) (hwf : WF t.nodes)
    (hinv : filesNonPartial t.nodes) :
    (∀ index s, s ≠ SelectionState.Partial →
      filesNonPartial (set_state t index s).nodes) ∧
    (∀ index, filesNonPartial (toggle_state t index).nodes) ∧
    (∀ fs path is_dir pp,
      filesNonPartial (add_node fs t path is_dir pp).1.nodes) := by
  refine ⟨fun index s hs => set_state_filesNonPartial t hwf hinv index hs, ?_, ?_⟩
  · intro index
    unfold toggle_state
    cases hnode : t.nodes[index]? with
    | none => exact hinv
    | some node =>
      exact set_state_filesNonPartial t hwf hinv index
        (by cases node.state <;> decide)
  · intro fs path is_dir pp j hj hdir hst
    obtain ⟨n', hn'⟩ : ∃ n', (add_node fs t path is_dir pp).1.nodes[j]? = some n' :=
      ⟨_, List.getElem?_eq_getElem hj⟩
    have hstate : n'.state = SelectionState.Partial := by
      unfold stateOf at hst
      rw [hn'] at hst
      exact Option.some.inj hst
    have hdirn : n'.is_directory = false := by
      unfold isDirD at hdir
      rw [hn'] at hdir
      simpa using hdir
    rcases add_node_entry fs t path is_dir pp j n' hn' with h1 | ⟨n, hn, h2, h3⟩
    · rw [h1] at hstate
      exact SelectionState.noConfusion hstate
    · have hjt : j < t.nodes.length := (List.getElem?_eq_some_iff.mp hn).1
      refine hinv j hjt ?_ ?_
      · unfold isDirD
        rw [hn]
        simp [← h3, hdirn]
      · unfold stateOf
        rw [hn]
        simp [← h2, hstate]

/-- C4 counterexample: `set_state` called with `Partial` on a file index
stores `Partial` on that file. -/
theorem c4_counterexample :
    (treeDemo.nodes[2]?).map (fun n => n.is_directory) = some false ∧
    stateOf (set_state treeDemo 2 SelectionState.Partial).nodes 2 =
      some SelectionState.Partial := by
  decide

/-- Witness for C4 at `treeDemo`. -/
theorem c4_file_states_witness :
    (WF treeDemo.nodes ∧ filesNonPartial treeDemo.nodes) ∧
    filesNonPartial (set_state treeDemo 1 SelectionState.Included).nodes ∧
    filesNonPartial (toggle_state treeDemo 2).nodes ∧
    filesNonPartial (add_node fsNone treeDemo ["r", "x.bin"] false ["r"]).1.nodes :=
  ⟨⟨by decide, by decide⟩,
    (c4_file_states_amended treeDemo (by decide) (by decide)).1 1
      SelectionState.Included (by decide),
    (c4_file_states_amended treeDemo (by decide) (by decide)).2.1 2,
    (c4_file_states_amended treeDemo (by decide) (by decide)).2.2 fsNone
      ["r", "x.bin"] false ["r"]⟩

/-- Witness for C8 at `treeDemo` with a non-empty query. -/
theorem c8_filter_tree_nodes_witness :
    ("q".toList ≠ ([] : List Char)) ∧
    ((filter_tree_nodes fuzzyNone treeDemo "q".toList).matches').Perm
      (fuzzyCandidates fuzzyNone treeDemo "q".toList) :=
  ⟨by decide, ((c8_filter_tree_nodes fuzzyNone treeDemo).2 "q".toList (by decide)).1⟩

/-! ## C1: the directory-state invariant -/

theorem descListF_sound : ∀ (fuel : Nat) (nodes : List FileNode) (i j : Nat),
    j ∈ descListF fuel nodes i → Desc nodes i j := by
  intro fuel
  induction fuel with
  | zero => intro nodes i j h; simp [descListF] at h
  | succ fuel ih =>
    intro nodes i j h
    simp only [descListF, List.mem_flatMap] at h
    obtain ⟨c, hc, hj⟩ := h
    rcases List.mem_cons.mp hj with he | hm
    · subst he
      exact Relation.TransGen.single hc
    · exact Relation.TransGen.head hc (ih nodes c j hm)

theorem descListF_complete : ∀ (fuel : Nat) (nodes : List FileNode) (i j : Nat),
    WF nodes → nodes.length ≤ fuel + i → Desc nodes i j →
    j ∈ descListF fuel nodes i := by
  intro fuel
  induction fuel with
  | zero =>
    intro nodes i j hwf hlen hdesc
    obtain ⟨c, hc, -⟩ := Relation.TransGen.head'_iff.mp hdesc
    have := childOf_lt_length hc
    omega
  | succ fuel ih =>
    intro nodes i j hwf hlen hdesc
    obtain ⟨c, hc, hcj⟩ := Relation.TransGen.head'_iff.mp hdesc
    have hic : i < c := (hwf.child_facts hc).1
    simp only [descListF, List.mem_flatMap]
    refine ⟨c, hc, ?_⟩
    rcases Relation.reflTransGen_iff_eq_or_transGen.mp hcj with he | ht
    · exact List.mem_cons.mpr (Or.inl he)
    · exact List.mem_cons.mpr (Or.inr (ih nodes c j hwf (by omega) ht))

theorem descFiles_iff {nodes : List FileNode} (hwf : WF nodes) (i j : Nat) :
    j ∈ descFiles nodes i ↔ Desc nodes i j ∧ isDirD nodes j = false := by
  unfold descFiles
  rw [List.mem_filter]
  constructor
  · intro ⟨h1, h2⟩
    exact ⟨descListF_sound _ _ _ _ h1, by simpa using h2⟩
  · intro ⟨h1, h2⟩
    exact ⟨descListF_complete _ _ _ _ hwf (by omega) h1, by simp [h2]⟩

theorem descListF_congr {a b : List FileNode} (h : sameShape a b) :
    ∀ (fuel : Nat) (i : Nat), descListF fuel a i = descListF fuel b i := by
  intro fuel
  induction fuel with
  | zero => intro i; rfl
  | succ fuel ih =>
    intro i
    simp only [descListF, h.childrenD_eq i]
    have he : (fun c => c :: descListF fuel a c) = (fun c => c :: descListF fuel b c) := by
      funext c
      rw [ih c]
    rw [he]

theorem sameShape.isDirD_fun_eq {a b : List FileNode} (h : sameShape a b) :
    isDirD a = isDirD b := funext h.isDirD_eq

theorem descFiles_congr {a b : List FileNode} (h : sameShape a b) (i : Nat) :
    descFiles a i = descFiles b i := by
  unfold descFiles
  rw [h.length_eq, descListF_congr h, h.isDirD_fun_eq]

/-- After the downward propagation and upward aggregation of `set_state`,
every strict descendant of the written index holds the written state (when
that state is not `Partial`). -/
theorem set_state_desc_state (t : DirectoryTree) (hwf : WF t.nodes) (k : Nat)
    {s : SelectionState} (hs : s ≠ SelectionState.Partial) :
    ∀ j, Desc t.nodes k j → stateOf (set_state t k s).nodes j = some s := by
  intro j hdesc
  have hk : k < t.nodes.length := by
    obtain ⟨c, hc, -⟩ := Relation.TransGen.head'_iff.mp hdesc
    exact childOf_lt_length hc
  obtain ⟨node, hnode⟩ : ∃ n, t.nodes[k]? = some n := ⟨_, List.getElem?_eq_getElem hk⟩
  have hkj : k < j := (hwf.desc_lt hdesc).1
  have hsh0 : sameShape t.nodes (t.nodes.set k { node with state := s }) :=
    sameShape_set_state hnode s
  have hwf0 := hsh0.wf_iff.mp hwf
  have hdesc0 : Desc (t.nodes.set k { node with state := s }) k j := by
    rw [← hsh0.desc_eq]
    exact hdesc
  have hptc : stateOf (propagate_to_children (t.nodes.set k { node with state := s }).length
      (t.nodes.set k { node with state := s }) k s) j = some s :=
    ptc_desc hs _ _ k hwf0 (by rw [List.length_set]; omega) j hdesc0
  have hsh1 : sameShape t.nodes
      (propagate_to_children (t.nodes.set k { node with state := s }).length
        (t.nodes.set k { node with state := s }) k s) :=
    hsh0.trans (ptc_sameShape _ _ k s)
  have hwf1 := hsh1.wf_iff.mp hwf
  simp only [set_state, hnode]
  generalize propagate_to_children (t.nodes.set k { node with state := s }).length
    (t.nodes.set k { node with state := s }) k s = L at hptc hwf1 ⊢
  cases hpar : node.parent with
  | none => exact hptc
  | some p =>
    have hrel : parentRel t.nodes k p := by
      unfold parentRel parentIdx
      rw [hnode]
      exact hpar
    have hp : p < k := (hwf.parent_facts hrel).1
    unfold stateOf at hptc ⊢
    rw [ups_above L.length L p hwf1 j (by omega)]
    exact hptc

theorem dirStatesConsistent_iff_rel {nodes : List FileNode} (hwf : WF nodes) :
    dirStatesConsistent nodes ↔
      ∀ d, d < nodes.length → isDirD nodes d = true → dirCharRel nodes d := by
  have hmem : ∀ (d : Nat) (P : Nat → Prop),
      (∀ j ∈ descFiles nodes d, P j) ↔
      (∀ j, Desc nodes d j → isDirD nodes j = false → P j) := by
    intro d P
    constructor
    · intro h j h1 h2
      exact h j ((descFiles_iff hwf d j).mpr ⟨h1, h2⟩)
    · intro h j hj
      obtain ⟨h1, h2⟩ := (descFiles_iff hwf d j).mp hj
      exact h j h1 h2
  have hne : ∀ d : Nat, descFiles nodes d ≠ [] ↔
      (∃ j, Desc nodes d j ∧ isDirD nodes j = false) := by
    intro d
    constructor
    · intro h
      obtain ⟨j, hj⟩ := List.exists_mem_of_ne_nil _ h
      exact ⟨j, (descFiles_iff hwf d j).mp hj⟩
    · intro ⟨j, h1, h2⟩
      exact List.ne_nil_of_mem ((descFiles_iff hwf d j).mpr ⟨h1, h2⟩)
  unfold dirStatesConsistent dirCharRel
  constructor
  · intro h d hd hdir
    obtain ⟨i1, i2⟩ := h d hd hdir
    exact ⟨i1.trans (and_congr (hne d) (hmem d _)), i2.trans (hmem d _)⟩
  · intro h d hd hdir
    obtain ⟨i1, i2⟩ := h d hd hdir
    exact ⟨i1.trans (and_congr (hne d) (hmem d _)).symm, i2.trans (hmem d _).symm⟩

/-- `dirCharRel` only reads the shape, the node's own state, and the states
of its descendants. -/
theorem dirCharRel_congr {a b : List FileNode} (hsh : sameShape a b) (c : Nat)
    (hc : stateOf a c = stateOf b c)
    (hst : ∀ j, Desc a c j → stateOf a j = stateOf b j) :
    dirCharRel a c ↔ dirCharRel b c := by
  unfold dirCharRel
  rw [← hsh.desc_eq, ← hsh.isDirD_fun_eq, hc]
  have h1 : (∀ j, Desc a c j → isDirD a j = false →
        stateOf a j = some SelectionState.Included) ↔
      (∀ j, Desc a c j → isDirD a j = false →
        stateOf b j = some SelectionState.Included) := by
    constructor <;> intro h j hd hf
    · rw [← hst j hd]
      exact h j hd hf
    · rw [hst j hd]
      exact h j hd hf
  have h2 : (∀ j, Desc a c j → isDirD a j = false →
        stateOf a j ≠ some SelectionState.Included) ↔
      (∀ j, Desc a c j → isDirD a j = false →
        stateOf b j ≠ some SelectionState.Included) := by
    constructor <;> intro h j hd hf
    · rw [← hst j hd]
      exact h j hd hf
    · rw [hst j hd]
      exact h j hd hf
  exact and_congr (iff_congr Iff.rfl (and_congr Iff.rfl h1)) (iff_congr Iff.rfl h2)

/-- A node of the ancestor chain of `k` has exactly one child lying on the
chain (with the node itself as its parent): `parentRel` is functional. -/
theorem chain_child_eq {nodes : List FileNode} (hwf : WF nodes) {k b c d : Nat}
    (hb : AncEq nodes k b) (hpb : parentRel nodes b d)
    (hc : AncEq nodes k c) (hpc : parentRel nodes c d) : b = c := by
  by_contra hne
  have hdb : d < b := (hwf.parent_facts hpb).1
  have hdc : d < c := (hwf.parent_facts hpc).1
  rcases ancEq_total hb hc with h | h
  · rcases Relation.reflTransGen_iff_eq_or_transGen.mp h with he | ht
    · exact hne he
    · obtain ⟨q, hq, hqb⟩ := Relation.TransGen.head'_iff.mp ht
      have hqd : q = d := parentRel_right_unique hq hpc
      rw [hqd] at hqb
      have := hwf.ancEq_le hqb
      omega
  · rcases Relation.reflTransGen_iff_eq_or_transGen.mp h with he | ht
    · exact hne he.symm
    · obtain ⟨q, hq, hqc⟩ := Relation.TransGen.head'_iff.mp ht
      have hqd : q = d := parentRel_right_unique hq hpb
      rw [hqd] at hqc
      have := hwf.ancEq_le hqc
      omega

/-- If `c` is neither in the written subtree nor on the written ancestor
chain, then neither is any node of `c`'s own subtree, so `set_state` leaves
all of it untouched. -/
theorem sep_untouched (t : DirectoryTree) (hwf : WF t.nodes) (k : Nat)
    (s : SelectionState) (c : Nat)
    (hnd : ¬ DescEq t.nodes k c) (hna : ¬ Anc t.nodes k c) :
    ∀ j, j = c ∨ Desc t.nodes c j →
      (set_state t k s).nodes[j]? = t.nodes[j]? := by
  intro j hj
  apply set_state_untouched t hwf k s j
  · intro hkj
    have hjc : AncEq t.nodes j c := by
      rcases hj with he | hd
      · cases he
        exact Relation.ReflTransGen.refl
      · exact (hwf.desc_iff_anc.mp hd).to_reflTransGen
    have hjk : AncEq t.nodes j k := by
      rcases Relation.reflTransGen_iff_eq_or_transGen.mp hkj with he | hd
      · cases he
        exact Relation.ReflTransGen.refl
      · exact (hwf.desc_iff_anc.mp hd).to_reflTransGen
    rcases ancEq_total hjk hjc with h | h
    · rcases Relation.reflTransGen_iff_eq_or_transGen.mp h with he | hd
      · exact hnd (by cases he; exact Relation.ReflTransGen.refl)
      · exact hnd (hwf.desc_iff_anc.mpr hd).to_reflTransGen
    · rcases Relation.reflTransGen_iff_eq_or_transGen.mp h with he | hd
      · exact hnd (by cases he; exact Relation.ReflTransGen.refl)
      · exact hna hd
  · intro hkj
    rcases hj with he | hd
    · exact hna (he ▸ hkj)
    · exact hna (Relation.TransGen.trans hkj (hwf.desc_iff_anc.mp hd))

/-- A child of a chain node other than the chain child is neither in the
written subtree nor on the chain. -/
theorem chain_sibling_free (t : DirectoryTree) (hwf : WF t.nodes)
    {k b c d : Nat} (hb : AncEq t.nodes k b) (hpb : parentRel t.nodes b d)
    (hc : childOf t.nodes d c) (hne : c ≠ b) :
    ¬ DescEq t.nodes k c ∧ ¬ Anc t.nodes k c := by
  have hpc : parentRel t.nodes c d := hwf.childOf_iff_parentRel.mp hc
  constructor
  · intro hkc
    rcases Relation.reflTransGen_iff_eq_or_transGen.mp hkc with he | hd
    · exact hne (chain_child_eq hwf hb hpb (by cases he; exact Relation.ReflTransGen.refl)
        hpc).symm
    · have hck : Anc t.nodes c k := hwf.desc_iff_anc.mp hd
      obtain ⟨q, hq, hqk⟩ := Relation.TransGen.head'_iff.mp hck
      have hqd : q = d := parentRel_right_unique hq hpc
      rw [hqd] at hqk
      have hkd : k ≤ d := hwf.ancEq_le hqk
      have hdb : d < b := (hwf.parent_facts hpb).1
      have hbk : b ≤ k := hwf.ancEq_le hb
      omega
  · intro hkc
    exact hne (chain_child_eq hwf hb hpb hkc.to_reflTransGen hpc).symm

/-- The aggregate of the three-way counting policy is `Included` exactly when
the child states are nonempty and all `Included`. -/
theorem aggregate_included_iff (states : List SelectionState) :
    aggregateStates states = SelectionState.Included ↔
      SelectionState.Included ∈ states ∧
      ∀ st ∈ states, st = SelectionState.Included := by
  rw [aggregateStates_policy]
  constructor
  · intro h
    by_cases h1 : SelectionState.Partial ∈ states ∨
        (SelectionState.Included ∈ states ∧ SelectionState.Excluded ∈ states)
    · rw [if_pos h1] at h
      exact absurd h (by decide)
    · rw [if_neg h1] at h
      by_cases h2 : SelectionState.Included ∈ states
      · refine ⟨h2, ?_⟩
        intro st hst
        cases st with
        | Included => rfl
        | Excluded => exact absurd (Or.inr ⟨h2, hst⟩) h1
        | Partial => exact absurd (Or.inl hst) h1
      · rw [if_neg h2] at h
        exact absurd h (by decide)
  · intro ⟨h2, hall⟩
    have hnp : ¬ (SelectionState.Partial ∈ states ∨
        (SelectionState.Included ∈ states ∧ SelectionState.Excluded ∈ states)) := by
      rintro (hp | ⟨-, he⟩)
      · exact absurd (hall _ hp) (by decide)
      · exact absurd (hall _ he) (by decide)
    rw [if_neg hnp, if_pos h2]

/-- The aggregate is `Excluded` exactly when every child state is
`Excluded`. -/
theorem aggregate_excluded_iff (states : List SelectionState) :
    aggregateStates states = SelectionState.Excluded ↔
      ∀ st ∈ states, st = SelectionState.Excluded := by
  rw [aggregateStates_policy]
  constructor
  · intro h st hst
    by_cases h1 : SelectionState.Partial ∈ states ∨
        (SelectionState.Included ∈ states ∧ SelectionState.Excluded ∈ states)
    · rw [if_pos h1] at h
      exact absurd h (by decide)
    · rw [if_neg h1] at h
      by_cases h2 : SelectionState.Included ∈ states
      · rw [if_pos h2] at h
        exact absurd h (by decide)
      · cases st with
        | Excluded => rfl
        | Included => exact absurd hst h2
        | Partial => exact absurd (Or.inl hst) h1
  · intro hall
    have hnp : ¬ (SelectionState.Partial ∈ states ∨
        (SelectionState.Included ∈ states ∧ SelectionState.Excluded ∈ states)) := by
      rintro (hp | ⟨hi, -⟩)
      · exact absurd (hall _ hp) (by decide)
      · exact absurd (hall _ hi) (by decide)
    have hni : SelectionState.Included ∉ states := by
      intro hi
      exact absurd (hall _ hi) (by decide)
    rw [if_neg hnp, if_neg hni]

/-- A directory whose state is the aggregate of its children's states, and
whose children each satisfy their own characterization (files binary,
directories consistent and nonempty below), itself satisfies the
characterization. -/
theorem agg_dirCharRel (nodes : List FileNode) (hwf : WF nodes) (d : Nat)
    (hchild : childrenD nodes d ≠ [])
    (hstate : stateOf nodes d = some (aggregateStates (childStates nodes d)))
    (hchars : ∀ c ∈ childrenD nodes d,
      (isDirD nodes c = false →
        stateOf nodes c = some SelectionState.Included ∨
        stateOf nodes c = some SelectionState.Excluded) ∧
      (isDirD nodes c = true →
        (∃ j, Desc nodes c j ∧ isDirD nodes j = false) ∧ dirCharRel nodes c)) :
    dirCharRel nodes d := by
  have hmemCS : ∀ st : SelectionState, st ∈ childStates nodes d ↔
      ∃ c ∈ childrenD nodes d, stateOf nodes c = some st := by
    intro st
    simp only [childStates, List.mem_filterMap]
    exact Iff.rfl
  have hcr : ∀ c ∈ childrenD nodes d, ∃ st, stateOf nodes c = some st := by
    intro c hc
    have hlt : c < nodes.length := (hwf.child_facts hc).2.1
    refine ⟨(nodes.get ⟨c, hlt⟩).state, ?_⟩
    unfold stateOf
    rw [List.getElem?_eq_getElem hlt]
    rfl
  have hnofile : ∀ c, isDirD nodes c = false → ∀ j, ¬ Desc nodes c j := by
    intro c hf j hd
    obtain ⟨q, hq, -⟩ := Relation.TransGen.head'_iff.mp hd
    have hlt : c < nodes.length := childOf_lt_length hq
    have := (hwf c hlt).2.2 hf
    unfold childOf at hq
    rw [this] at hq
    exact List.not_mem_nil q hq
  have hbool : ∀ c : Nat, ¬ isDirD nodes c = true → isDirD nodes c = false := by
    intro c h
    cases hh : isDirD nodes c with
    | true => exact absurd hh h
    | false => rfl
  have hChildInc : ∀ c ∈ childrenD nodes d,
      (stateOf nodes c = some SelectionState.Included ↔
        ∀ j, (j = c ∨ Desc nodes c j) → isDirD nodes j = false →
          stateOf nodes j = some SelectionState.Included) := by
    intro c hc
    by_cases hdir : isDirD nodes c = true
    · obtain ⟨hex, hrel⟩ := (hchars c hc).2 hdir
      constructor
      · intro h j hdj hfj
        rcases hdj with he | hdj
        · rw [he] at hfj
          rw [hdir] at hfj
          exact absurd hfj (by decide)
        · exact (hrel.1.mp h).2 j hdj hfj
      · intro h
        exact hrel.1.mpr ⟨hex, fun j hdj hfj => h j (Or.inr hdj) hfj⟩
    · have hdir' : isDirD nodes c = false := hbool c hdir
      constructor
      · intro h j hdj hfj
        rcases hdj with he | hdj
        · rw [he]
          exact h
        · exact absurd hdj (hnofile c hdir' j)
      · intro h
        exact h c (Or.inl rfl) hdir'
  have hChildExc : ∀ c ∈ childrenD nodes d,
      (stateOf nodes c = some SelectionState.Excluded ↔
        ∀ j, (j = c ∨ Desc nodes c j) → isDirD nodes j = false →
          stateOf nodes j ≠ some SelectionState.Included) := by
    intro c hc
    by_cases hdir : isDirD nodes c = true
    · obtain ⟨hex, hrel⟩ := (hchars c hc).2 hdir
      constructor
      · intro h j hdj hfj
        rcases hdj with he | hdj
        · rw [he] at hfj
          rw [hdir] at hfj
          exact absurd hfj (by decide)
        · exact hrel.2.mp h j hdj hfj
      · intro h
        exact hrel.2.mpr (fun j hdj hfj => h j (Or.inr hdj) hfj)
    · have hdir' : isDirD nodes c = false := hbool c hdir
      constructor
      · intro h j hdj hfj
        rcases hdj with he | hdj
        · rw [he, h]
          intro hcon
          exact absurd (Option.some.inj hcon) (by decide)
        · exact absurd hdj (hnofile c hdir' j)
      · intro h
        rcases (hchars c hc).1 hdir' with h1 | h1
        · exact absurd h1 (h c (Or.inl rfl) hdir')
        · exact h1
  have hDesc_d : ∀ j : Nat, Desc nodes d j ↔
      ∃ c ∈ childrenD nodes d, (j = c ∨ Desc nodes c j) := by
    intro j
    unfold Desc
    rw [Relation.TransGen.head'_iff]
    constructor
    · intro ⟨b, hb, hbj⟩
      refine ⟨b, hb, ?_⟩
      rcases Relation.reflTransGen_iff_eq_or_transGen.mp hbj with he | ht
      · exact Or.inl he
      · exact Or.inr ht
    · intro ⟨c, hc, hcj⟩
      refine ⟨c, hc, ?_⟩
      rcases hcj with he | hd
      · cases he
        exact Relation.ReflTransGen.refl
      · exact hd.to_reflTransGen
  have hexd : ∃ j, Desc nodes d j ∧ isDirD nodes j = false := by
    obtain ⟨c0, hc0⟩ := List.exists_mem_of_ne_nil _ hchild
    by_cases hdir0 : isDirD nodes c0 = true
    · obtain ⟨⟨j, hdj, hfj⟩, -⟩ := (hchars c0 hc0).2 hdir0
      exact ⟨j, Relation.TransGen.head hc0 hdj, hfj⟩
    · exact ⟨c0, Relation.TransGen.single hc0, hbool c0 hdir0⟩
  unfold dirCharRel
  rw [hstate]
  simp only [Option.some.injEq]
  constructor
  · constructor
    · intro hA
      obtain ⟨hin, hall⟩ := (aggregate_included_iff _).mp hA
      refine ⟨hexd, ?_⟩
      intro j hdj hfj
      obtain ⟨c, hc, hcj⟩ := (hDesc_d j).mp hdj
      obtain ⟨st, hst⟩ := hcr c hc
      have hstI : st = SelectionState.Included := hall st ((hmemCS st).mpr ⟨c, hc, hst⟩)
      rw [hstI] at hst
      exact (hChildInc c hc).mp hst j hcj hfj
    · rintro ⟨-, hall⟩
      apply (aggregate_included_iff _).mpr
      have hallc : ∀ c ∈ childrenD nodes d,
          stateOf nodes c = some SelectionState.Included := by
        intro c hc
        apply (hChildInc c hc).mpr
        intro j hcj hfj
        exact hall j ((hDesc_d j).mpr ⟨c, hc, hcj⟩) hfj
      constructor
      · obtain ⟨c0, hc0⟩ := List.exists_mem_of_ne_nil _ hchild
        exact (hmemCS _).mpr ⟨c0, hc0, hallc c0 hc0⟩
      · intro st hst
        obtain ⟨c, hc, hstc⟩ := (hmemCS st).mp hst
        have := hallc c hc
        rw [this] at hstc
        exact (Option.some.inj hstc).symm
  · constructor
    · intro hA j hdj hfj
      have hall := (aggregate_excluded_iff _).mp hA
      obtain ⟨c, hc, hcj⟩ := (hDesc_d j).mp hdj
      obtain ⟨st, hst⟩ := hcr c hc
      have hstE : st = SelectionState.Excluded := hall st ((hmemCS st).mpr ⟨c, hc, hst⟩)
      rw [hstE] at hst
      exact (hChildExc c hc).mp hst j hcj hfj
    · intro hall
      apply (aggregate_excluded_iff _).mpr
      intro st hst
      obtain ⟨c, hc, hstc⟩ := (hmemCS st).mp hst
      have hcE : stateOf nodes c = some SelectionState.Excluded := by
        apply (hChildExc c hc).mpr
        intro j hcj hfj
        exact hall j ((hDesc_d j).mpr ⟨c, hc, hcj⟩) hfj
      rw [hcE] at hstc
      exact (Option.some.inj hstc).symm

/-- Region below the write: the written index and its descendants all carry
the written state, so every directory among them satisfies the
characterization (its descendant files exist and all carry the state). -/
theorem set_state_region_sub (t : DirectoryTree) (hwf : WF t.nodes)
    (hH : everyDirHasFile t.nodes) (k : Nat) (hk : k < t.nodes.length)
    {s : SelectionState} (hs : s ≠ SelectionState.Partial) :
    ∀ d, DescEq t.nodes k d → isDirD t.nodes d = true →
      dirCharRel (set_state t k s).nodes d := by
  intro d hde hdir
  have hsh := set_state_sameShape t k s
  have hd0 : d < t.nodes.length := by
    rcases Relation.reflTransGen_iff_eq_or_transGen.mp hde with he | hd
    · cases he
      exact hk
    · exact (hwf.desc_lt hd).2
  have hstate_d : stateOf (set_state t k s).nodes d = some s := by
    rcases Relation.reflTransGen_iff_eq_or_transGen.mp hde with he | hd
    · cases he
      exact set_state_state_self t hwf k hk s
    · exact set_state_desc_state t hwf k hs d hd
  have hall : ∀ j, Desc (set_state t k s).nodes d j →
      stateOf (set_state t k s).nodes j = some s := by
    intro j hdj
    rw [← hsh.desc_eq] at hdj
    have hkj : Desc t.nodes k j := by
      rcases Relation.reflTransGen_iff_eq_or_transGen.mp hde with he | hd
      · cases he
        exact hdj
      · exact Relation.TransGen.trans hd hdj
    exact set_state_desc_state t hwf k hs j hkj
  have hex : ∃ j, Desc (set_state t k s).nodes d j ∧
      isDirD (set_state t k s).nodes j = false := by
    have h1 := hH d hd0 hdir
    obtain ⟨j, hj⟩ := List.exists_mem_of_ne_nil _ h1
    obtain ⟨hdj, hfj⟩ := (descFiles_iff hwf d j).mp hj
    refine ⟨j, ?_, ?_⟩
    · rw [← hsh.desc_eq]
      exact hdj
    · rw [← hsh.isDirD_eq]
      exact hfj
  unfold dirCharRel
  rw [hstate_d]
  cases s with
  | Partial => exact absurd rfl hs
  | Included =>
    constructor
    · constructor
      · intro _
        exact ⟨hex, fun j hdj _ => hall j hdj⟩
      · intro _
        rfl
    · constructor
      · intro h
        exact absurd (Option.some.inj h) (by decide)
      · intro hcon
        obtain ⟨j, hdj, hfj⟩ := hex
        exact absurd (hall j hdj) (hcon j hdj hfj)
  | Excluded =>
    constructor
    · constructor
      · intro h
        exact absurd (Option.some.inj h) (by decide)
      · rintro ⟨⟨j, hdj, hfj⟩, hallInc⟩
        have h1 := hallInc j hdj hfj
        rw [hall j hdj] at h1
        exact absurd (Option.some.inj h1) (by decide)
    · constructor
      · intro _ j hdj hfj
        rw [hall j hdj]
        intro hcon
        exact absurd (Option.some.inj hcon) (by decide)
      · intro _
        rfl

/-- A node of the written ancestor chain satisfies the characterization,
given the characterization of its chain child: its state is the aggregate of
its children, the chain child is characterized by hypothesis, and every
other child's subtree is untouched so its old characterization carries
over. -/
theorem chain_node_dirCharRel (t : DirectoryTree) (hwf : WF t.nodes)
    (hD : dirStatesConsistent t.nodes) (hF : filesNonPartial t.nodes)
    (hH : everyDirHasFile t.nodes) (k : Nat) (hk : k < t.nodes.length)
    (s : SelectionState) {b d : Nat}
    (hb : AncEq t.nodes k b) (hpb : parentRel t.nodes b d)
    (hbchar : (isDirD t.nodes b = false →
        stateOf (set_state t k s).nodes b = some SelectionState.Included ∨
        stateOf (set_state t k s).nodes b = some SelectionState.Excluded) ∧
      (isDirD t.nodes b = true → dirCharRel (set_state t k s).nodes b)) :
    dirCharRel (set_state t k s).nodes d := by
  have hsh := set_state_sameShape t k s
  have hwf' := hsh.wf_iff.mp hwf
  have hancd : Anc t.nodes k d := Relation.TransGen.tail' hb hpb
  have hstate := set_state_anc_agg t hwf k hk s d hancd
  have hcb : childOf t.nodes d b := (hwf.parent_facts hpb).2
  have hchild : childrenD (set_state t k s).nodes d ≠ [] := by
    rw [← hsh.childrenD_eq]
    exact List.ne_nil_of_mem hcb
  apply agg_dirCharRel _ hwf' d hchild hstate
  intro c hc
  rw [← hsh.childrenD_eq] at hc
  have hclen : c < t.nodes.length := (hwf.child_facts hc).2.1
  by_cases hcb' : c = b
  · subst hcb'
    constructor
    · intro hf
      exact hbchar.1 (by rw [hsh.isDirD_eq]; exact hf)
    · intro hfd
      have hfd0 : isDirD t.nodes c = true := by
        rw [hsh.isDirD_eq]
        exact hfd
      refine ⟨?_, hbchar.2 hfd0⟩
      have h1 := hH c hclen hfd0
      obtain ⟨j, hj⟩ := List.exists_mem_of_ne_nil _ h1
      obtain ⟨hdj, hfj⟩ := (descFiles_iff hwf c j).mp hj
      exact ⟨j, by rw [← hsh.desc_eq]; exact hdj, by rw [← hsh.isDirD_eq]; exact hfj⟩
  · obtain ⟨hnd, hna⟩ := chain_sibling_free t hwf hb hpb hc hcb'
    have hu := sep_untouched t hwf k s c hnd hna
    have hstc : stateOf t.nodes c = stateOf (set_state t k s).nodes c := by
      unfold stateOf
      rw [hu c (Or.inl rfl)]
    constructor
    · intro hf
      have hf0 : isDirD t.nodes c = false := by
        rw [hsh.isDirD_eq]
        exact hf
      obtain ⟨st, hst⟩ : ∃ st, stateOf t.nodes c = some st :=
        ⟨(t.nodes.get ⟨c, hclen⟩).state, by
          unfold stateOf
          rw [List.getElem?_eq_getElem hclen]
          rfl⟩
      have hnp := hF c hclen hf0
      rw [← hstc]
      cases st with
      | Included => exact Or.inl hst
      | Excluded => exact Or.inr hst
      | Partial => exact absurd hst hnp
    · intro hfd
      have hfd0 : isDirD t.nodes c = true := by
        rw [hsh.isDirD_eq]
        exact hfd
      constructor
      · have h1 := hH c hclen hfd0
        obtain ⟨j, hj⟩ := List.exists_mem_of_ne_nil _ h1
        obtain ⟨hdj, hfj⟩ := (descFiles_iff hwf c j).mp hj
        exact ⟨j, by rw [← hsh.desc_eq]; exact hdj, by rw [← hsh.isDirD_eq]; exact hfj⟩
      · have hch0 : dirCharRel t.nodes c :=
          (dirStatesConsistent_iff_rel hwf).mp hD c hclen hfd0
        refine (dirCharRel_congr hsh c hstc ?_).mp hch0
        intro j hdj
        unfold stateOf
        rw [hu j (Or.inr hdj)]

/-- Region above the write: every proper ancestor of the written index
satisfies the characterization, by induction up the chain. -/
theorem set_state_region_anc (t : DirectoryTree) (hwf : WF t.nodes)
    (hD : dirStatesConsistent t.nodes) (hF : filesNonPartial t.nodes)
    (hH : everyDirHasFile t.nodes) (k : Nat) (hk : k < t.nodes.length)
    {s : SelectionState} (hs : s ≠ SelectionState.Partial) :
    ∀ d, Anc t.nodes k d → dirCharRel (set_state t k s).nodes d := by
  intro d hanc
  induction hanc with
  | single hp =>
    apply chain_node_dirCharRel t hwf hD hF hH k hk s Relation.ReflTransGen.refl hp
    constructor
    · intro _
      have hself := set_state_state_self t hwf k hk s
      cases s with
      | Included => exact Or.inl hself
      | Excluded => exact Or.inr hself
      | Partial => exact absurd rfl hs
    · intro hfd
      exact set_state_region_sub t hwf hH k hk hs k Relation.ReflTransGen.refl hfd
  | @tail b d' hab hbd ih =>
    apply chain_node_dirCharRel t hwf hD hF hH k hk s hab.to_reflTransGen hbd
    have hbdir : isDirD t.nodes b = true := by
      obtain ⟨x, -, hx⟩ := Relation.TransGen.tail'_iff.mp hab
      have hcx := (hwf.parent_facts hx).2
      by_contra hnb
      have hblen := childOf_lt_length hcx
      have hemp := (hwf b hblen).2.2 (by
        revert hnb
        cases isDirD t.nodes b <;> simp)
      unfold childOf at hcx
      rw [hemp] at hcx
      exact List.not_mem_nil x hcx
    exact ⟨fun hf => by rw [hbdir] at hf; exact absurd hf (by decide), fun _ => ih⟩

/-- `set_state` with a non-`Partial` state preserves the directory-state
characterization on well-formed arenas where files are binary and every
directory has a descendant file. -/
theorem set_state_dirStatesConsistent (t : DirectoryTree) (hwf : WF t.nodes)
    (hD : dirStatesConsistent t.nodes) (hF : filesNonPartial t.nodes)
    (hH : everyDirHasFile t.nodes) (k : Nat) {s : SelectionState}
    (hs : s ≠ SelectionState.Partial) :
    dirStatesConsistent (set_state t k s).nodes := by
  by_cases hk : k < t.nodes.length
  · have hsh := set_state_sameShape t k s
    have hwf' := hsh.wf_iff.mp hwf
    rw [dirStatesConsistent_iff_rel hwf']
    intro d hd hdir
    have hd0 : d < t.nodes.length := by
      rw [hsh.length_eq]
      exact hd
    have hdir0 : isDirD t.nodes d = true := by
      rw [hsh.isDirD_eq]
      exact hdir
    by_cases hR1 : DescEq t.nodes k d
    · exact set_state_region_sub t hwf hH k hk hs d hR1 hdir0
    · by_cases hR2 : Anc t.nodes k d
      · exact set_state_region_anc t hwf hD hF hH k hk hs d hR2
      · have hu := sep_untouched t hwf k s d hR1 hR2
        have hch0 : dirCharRel t.nodes d :=
          (dirStatesConsistent_iff_rel hwf).mp hD d hd0 hdir0
        refine (dirCharRel_congr hsh d ?_ ?_).mp hch0
        · unfold stateOf
          rw [hu d (Or.inl rfl)]
        · intro j hdj
          unfold stateOf
          rw [hu j (Or.inr hdj)]
  · have hn : t.nodes[k]? = none := List.getElem?_eq_none (by omega)
    have heq : set_state t k s = t := by simp only [set_state, hn]
    rw [heq]
    exact hD

/-- C1 counterexample: after `set_state(f.rs, Included)` the root directory
has exactly one descendant file, which is `Included`, yet the root's state is
`Partial`, not `Included`: the empty sibling directory `emptyd` stays
`Excluded` and the mix makes the aggregate `Partial`. -/
theorem c1_counterexample :
    isDirD (set_state treeC1 2 SelectionState.Included).nodes 0 = true ∧
    descFiles (set_state treeC1 2 SelectionState.Included).nodes 0 = [2] ∧
    stateOf (set_state treeC1 2 SelectionState.Included).nodes 2 =
      some SelectionState.Included ∧
    stateOf (set_state treeC1 2 SelectionState.Included).nodes 0 =
      some SelectionState.Partial := by
  decide

/-- C1 (amended): the directory characterization — `Included` iff the
directory has at least one descendant file and all of them are `Included`,
`Excluded` iff none is `Included`, `Partial` otherwise — is an invariant of
`set_state` with a non-`Partial` state and of `toggle_state`, on well-formed
arenas where files are binary and every directory has at least one
descendant file.  The original claim fails without the latter hypothesis
(`c1_counterexample`: an empty directory drags an all-`Included` ancestor to
`Partial`), for `set_state` with `Partial` (`c4_counterexample` stores
`Partial` on a file), and for `add_node` (the fresh `Excluded` node is
linked without re-aggregating its ancestors). -/
theorem c1_directory_states_amended (t : DirectoryTree) (hwf : WF t.nodes)
    (hD : dirStatesConsistent t.nodes) (hF : filesNonPartial t.nodes)
    (hH : everyDirHasFile t.nodes) :
    (∀ index s, s ≠ SelectionState.Partial →
      dirStatesConsistent (set_state t index s).nodes) ∧
    (∀ index, dirStatesConsistent (toggle_state t index).nodes) := by
  constructor
  · intro index s hs
    exact set_state_dirStatesConsistent t hwf hD hF hH index hs
  · intro index
    unfold toggle_state
    cases hnode : t.nodes[index]? with
    | none => exact hD
    | some node =>
      exact set_state_dirStatesConsistent t hwf hD hF hH index
        (by cases node.state <;> decide)

/-- Witness for C1 at `treeDemo`. -/
theorem c1_directory_states_witness :
    (WF treeDemo.nodes ∧ dirStatesConsistent treeDemo.nodes ∧
     filesNonPartial treeDemo.nodes ∧ everyDirHasFile treeDemo.nodes) ∧
    dirStatesConsistent (set_state treeDemo 2 SelectionState.Included).nodes ∧
    dirStatesConsistent (toggle_state treeDemo 1).nodes :=
  ⟨⟨by decide, by decide, by decide, by decide⟩,
    (c1_directory_states_amended treeDemo (by decide) (by decide) (by decide)
      (by decide)).1 2 SelectionState.Included (by decide),
    (c1_directory_states_amended treeDemo (by decide) (by decide) (by decide)
      (by decide)).2 1⟩
